import Mathlib

/-!
Verification of the git history engine of `spit` (src/git/…) against its
natural-language specification.

The Rust sources are shallowly embedded: machine bytes become `Nat` values
(with explicit `< 256` bounds where relevant), `Vec`/slices become `List`,
`HashMap` becomes a function, fallible code returns `Except`, and `while`
loops become fuel-indexed recursions (the fuel is shown sufficient under the
hypotheses of each claim).  External crates (flate2, git2, the filesystem)
are modelled as oracle parameters; everything from this repository is
translated from the source.
-/
/-! ### ObjectId (src/git/object_id.rs) -/

/-- Model of `ObjectId`: the Rust struct holds `id: [u8; 20]`.  Bytes are
`Nat`s; well-formedness (length 20, bytes < 256) is a separate predicate. -/
structure ObjectId where
  id : List Nat
deriving DecidableEq, Repr

/-- Well-formedness of an `ObjectId` value: exactly the invariant the Rust
type `[u8; 20]` enforces statically. -/
def ObjectId.Wf (o : ObjectId) : Prop :=
  o.id.length = 20 ∧ ∀ b ∈ o.id, b < 256

instance : DecidablePred ObjectId.Wf := fun o => by
  unfold ObjectId.Wf; infer_instance

/-- Lowercase hex digit for a nibble, as produced by `faster_hex::hex_encode`
(`0`..`9` then `a`..`f`). -/
def hexDigitLower (n : Nat) : Char :=
  if n < 10 then Char.ofNat (48 + n) else Char.ofNat (87 + n)

/-- Hex encoding of one byte: high nibble then low nibble, lowercase. -/
def encodeByteHex (b : Nat) : List Char :=
  [hexDigitLower (b / 16), hexDigitLower (b % 16)]

/-- Model of `ObjectId`'s `Display` impl: `faster_hex::hex_encode` over the
20 bytes, producing 40 lowercase hex characters. -/
def ObjectId.render (o : ObjectId) : List Char :=
  (o.id.map encodeByteHex).flatten

/-- Value of a hex character as accepted by `faster_hex::hex_decode`
(case-insensitive); `none` for a non-hex character. -/
def hexCharValue (c : Char) : Option Nat :=
  if 48 ≤ c.toNat ∧ c.toNat ≤ 57 then some (c.toNat - 48)
  else if 97 ≤ c.toNat ∧ c.toNat ≤ 102 then some (c.toNat - 87)
  else if 65 ≤ c.toNat ∧ c.toNat ≤ 70 then some (c.toNat - 55)
  else none

/-- Decode a hex character sequence two characters at a time into bytes;
fails when a non-hex character appears (the failure mode of
`faster_hex::hex_decode` on valid-length input). -/
def decodeHexChars : List Char → Option (List Nat)
  | [] => some []
  | [_] => none
  | hi :: lo :: rest => do
    let h ← hexCharValue hi
    let l ← hexCharValue lo
    let r ← decodeHexChars rest
    pure ((h * 16 + l) :: r)

/-- Model of `ObjectId::from_str`: reject inputs whose length is not 40
(`"Object ID strings should be 40 chars"`), then hex-decode the 40
characters into 20 bytes (`"Failed to decode ObjectId string"` on a non-hex
character). -/
def ObjectId.fromStr (s : List Char) : Except String ObjectId :=
  if s.length ≠ 40 then .error "Object ID strings should be 40 chars"
  else
    match decodeHexChars s with
    | some bytes => .ok ⟨bytes⟩
    | none => .error "Failed to decode ObjectId string"

/-! ### Commit metadata (src/git/mod.rs) -/

/-- Model of `SortType` (src/git/repo.rs). -/
inductive SortType
  | AuthorTimestamp
  | CommitterTimestamp
deriving DecidableEq, Repr

/-- Model of `CommitMetadata`.  `DateTime<Utc>` timestamps are totally
ordered instants; we model them as `Int`. -/
structure CommitMetadata where
  id : ObjectId
  parents : List ObjectId
  author_timestamp : Int
  committer_timestamp : Int
deriving DecidableEq, Repr

/-- Model of `CommitMetadataWithoutId`. -/
structure CommitMetadataWithoutId where
  parents : List ObjectId
  author_timestamp : Int
  committer_timestamp : Int
deriving DecidableEq, Repr

/-- Model of `CommitMetadataWithoutId::into_full_metadata`. -/
def CommitMetadataWithoutId.into_full_metadata (m : CommitMetadataWithoutId)
    (id : ObjectId) : CommitMetadata :=
  ⟨id, m.parents, m.author_timestamp, m.committer_timestamp⟩

/-- Default metadata value, used only to make Rust's panicking slice
indexing (`storage[idx]`) total in the embedding; the claims' hypotheses
keep every such index in bounds. -/
def cmDefault : CommitMetadata := ⟨⟨[]⟩, [], 0, 0⟩

/-- Element access `storage[i]` (helper for readability). -/
def sval (storage : List CommitMetadata) (i : Nat) : CommitMetadata :=
  storage.getD i cmDefault

/-- Model of `compare_commit_metadata` (src/git/repo.rs). -/
def compare_commit_metadata (a b : CommitMetadata) (sort_type : SortType) :
    Ordering :=
  match sort_type with
  | .AuthorTimestamp => compare a.author_timestamp b.author_timestamp
  | .CommitterTimestamp => compare a.committer_timestamp b.committer_timestamp

/-- Timestamp selected by the sort type (helper: `compare_commit_metadata`
is exactly `compare` on this key, see `compare_commit_metadata_eq_key`). -/
def sortKey (sort_type : SortType) (m : CommitMetadata) : Int :=
  match sort_type with
  | .AuthorTimestamp => m.author_timestamp
  | .CommitterTimestamp => m.committer_timestamp


/-- Ascending-by-configured-timestamp relation on metadata slot indices. -/
def keyLe (sort_type : SortType) (storage : List CommitMetadata)
    (a b : Nat) : Prop :=
  sortKey sort_type (sval storage a) ≤ sortKey sort_type (sval storage b)

/-! ### Phase A: build_reverse_dag (src/git/repo.rs)

The walk resolves commits through `get_commit_metadata_idx`, which grows
the metadata cache.  The claims assume every reachable ancestor is
resolvable, so the cache reaches a fixed point; we model the walk against
that final table: `storage` is the final `metadata_storage` and
`index_lookup : ObjectId → Nat` the final `metadata_lookup` (a total
function, since `index_lookup[parent]` indexing would panic on a missing
key).  `Vec::pop` removes the last element; the embedding keeps the stack
top at the list head, so `Vec::push` is `cons` and the initial stack is
the reversed heads list. -/

/-- State of the `build_reverse_dag` loop.  `walked` is a `HashSet<usize>`
modelled as the list of its elements (most recently inserted first);
only membership in it is meaningful. -/
structure PhaseAState where
  to_walk : List Nat
  walked : List Nat
  child_indices : List (List Nat)
deriving Repr

/-- Model of `child_indices.resize(parent_idx + 1, Vec::new())` guarded by
`child_indices.len() <= parent_idx`. -/
def ensureLen (ci : List (List Nat)) (parent_idx : Nat) : List (List Nat) :=
  if ci.length ≤ parent_idx then
    ci ++ List.replicate (parent_idx + 1 - ci.length) []
  else ci

/-- One step of the `for parent in parents` loop of `build_reverse_dag`:
resolve the parent, record `idx` as its child, push the parent on the
walk stack. -/
def walk_record (index_lookup : ObjectId → Nat) (idx : Nat)
    (st : List Nat × List (List Nat)) (parent : ObjectId) :
    List Nat × List (List Nat) :=
  let parent_idx := index_lookup parent
  let ci := ensureLen st.2 parent_idx
  let ci := ci.set parent_idx ((ci.getD parent_idx []) ++ [idx])
  (parent_idx :: st.1, ci)

/-- Fuel-indexed model of the `while let Some(idx) = to_walk.pop()` loop of
`build_reverse_dag`. -/
def build_reverse_dag_loop (index_lookup : ObjectId → Nat)
    (storage : List CommitMetadata) :
    Nat → PhaseAState → PhaseAState
  | 0, st => st
  | fuel + 1, st =>
    match st.to_walk with
    | [] => st
    | idx :: rest =>
      if idx ∈ st.walked then
        build_reverse_dag_loop index_lookup storage fuel
          ⟨rest, st.walked, st.child_indices⟩
      else
        let parents := (sval storage idx).parents
        let next := parents.foldl (walk_record index_lookup idx)
          (rest, st.child_indices)
        build_reverse_dag_loop index_lookup storage fuel
          ⟨next.1, idx :: st.walked, next.2⟩

/-- Model of `Repo::build_reverse_dag`.  The fuel dominates the loop's
potential (stack length plus, per unwalked index, one plus its parent
count), proven sufficient under the claims' hypotheses. -/
def build_reverse_dag (index_lookup : ObjectId → Nat)
    (storage : List CommitMetadata) (heads : List ObjectId) : PhaseAState :=
  let fuel := heads.length + storage.length +
    (storage.map (fun m => m.parents.length)).sum + 1
  build_reverse_dag_loop index_lookup storage fuel
    ⟨(heads.map index_lookup).reverse, [], []⟩

/-! ### Phase B: build_sorted_metadata_indicies (src/git/repo.rs) -/

/-- Model of `get_childless_indices`: keep the walked indices with no
recorded children; `child_indices.get(idx) = None` (index out of range)
also counts as childless.  The walked `HashSet` is iterated in an order
the Rust standard library does not specify; the input list stands for
that iteration order and theorems quantify over it. -/
def get_childless_indices (walked_indices : List Nat)
    (child_indices : List (List Nat)) : List Nat :=
  walked_indices.filter (fun idx => (child_indices.getD idx []).isEmpty)

/-- Fuel-indexed model of Rust `slice::binary_search_by` (from the standard
library, called by the source): `f` is the comparator applied to an
element.  The source uses the `Ok` and `Err` positions identically
(`Ok(v) => v, Err(v) => v`), so the model returns the position directly. -/
def binarySearchGo (l : List Nat) (f : Nat → Ordering) :
    Nat → Nat → Nat → Nat
  | 0, left, _ => left
  | fuel + 1, left, right =>
    if left < right then
      match f (l.getD (left + (right - left) / 2) 0) with
      | .lt => binarySearchGo l f fuel (left + (right - left) / 2 + 1) right
      | .gt => binarySearchGo l f fuel left (left + (right - left) / 2)
      | .eq => left + (right - left) / 2
    else left

/-- Insertion of a newly childless parent into the sorted eligible list:
`no_child_options.binary_search_by(|&x| compare_commit_metadata(&storage[x],
&storage[parent_idx], sort_type))`, inserting at the returned position. -/
def insert_no_child_option (sort_type : SortType)
    (storage : List CommitMetadata) (elig : List Nat) (parent_idx : Nat) :
    List Nat :=
  elig.insertIdx
    (binarySearchGo elig
      (fun x => compare_commit_metadata (sval storage x)
        (sval storage parent_idx) sort_type)
      (elig.length + 1) 0 elig.length)
    parent_idx

/-- One iteration of the inner `for parent_idx in parent_indices` loop of
`build_sorted_metadata_indicies`: erase the first occurrence of `idx` from
the parent's pending-child list (`position` + `remove`; no-op when absent),
then, if that list is now empty, insert the parent into the eligible
list. -/
def process_parent (sort_type : SortType) (storage : List CommitMetadata)
    (idx : Nat) (st : List Nat × List (List Nat)) (parent_idx : Nat) :
    List Nat × List (List Nat) :=
  let ci := st.2.set parent_idx ((st.2.getD parent_idx []).erase idx)
  let elig :=
    if (ci.getD parent_idx []).isEmpty then
      insert_no_child_option sort_type storage st.1 parent_idx
    else st.1
  (elig, ci)

/-- State of the Phase B loop. -/
structure PhaseBState where
  no_child_options : List Nat
  child_indices : List (List Nat)
  sorted_indices : List Nat
deriving Repr

/-- One iteration of `while let Some(idx) = no_child_options.pop()`:
`Vec::pop` removes the last element; the popped index is emitted and each
of its parents (in declared order, resolved through `index_lookup`) is
processed by `process_parent`. -/
def phaseBStep (sort_type : SortType) (storage : List CommitMetadata)
    (index_lookup : ObjectId → Nat) (st : PhaseBState) : PhaseBState :=
  match st.no_child_options.getLast? with
  | none => st
  | some idx =>
    let parent_indices := (sval storage idx).parents.map index_lookup
    let next := parent_indices.foldl (process_parent sort_type storage idx)
      (st.no_child_options.dropLast, st.child_indices)
    ⟨next.1, next.2, st.sorted_indices ++ [idx]⟩

/-- Fuel-indexed model of the Phase B loop. -/
def phaseBLoop (sort_type : SortType) (storage : List CommitMetadata)
    (index_lookup : ObjectId → Nat) : Nat → PhaseBState → PhaseBState
  | 0, st => st
  | fuel + 1, st =>
    if st.no_child_options.isEmpty then st
    else phaseBLoop sort_type storage index_lookup fuel
      (phaseBStep sort_type storage index_lookup st)

/-- Comparator of the initial `no_child_options.sort_by(...)` call, as a
Boolean "less or equal" relation for `mergeSort` (Rust's `sort_by` sorts
ascending with respect to the comparator; it is a stable sort, as is
`mergeSort`). -/
def cmLe (sort_type : SortType) (storage : List CommitMetadata)
    (a b : Nat) : Bool :=
  decide (compare_commit_metadata (sval storage a) (sval storage b)
    sort_type ≠ Ordering.gt)

/-- Model of `build_sorted_metadata_indicies`.  `walked_indices` is the
walked `HashSet` in iteration order.  The loop receives
`walked_indices.length + 1` fuel, proven sufficient under the claims'
hypotheses (each iteration emits a distinct walked index). -/
def build_sorted_metadata_indicies (sort_type : SortType)
    (walked_indices : List Nat) (child_indices : List (List Nat))
    (index_lookup : ObjectId → Nat) (storage : List CommitMetadata) :
    List Nat :=
  let no_child := get_childless_indices walked_indices child_indices
  let sorted := no_child.mergeSort (cmLe sort_type storage)
  (phaseBLoop sort_type storage index_lookup (walked_indices.length + 1)
    ⟨sorted, child_indices, []⟩).sorted_indices

/-- Model of `Repo::metadata_iter` under the full-resolvability hypothesis
(see the Phase A section header).  `walk_order` is the iteration order of
the walked `HashSet` handed to Phase B; theorems require it to enumerate
the walked set and otherwise quantify over it. -/
def metadata_iter (sort_type : SortType) (storage : List CommitMetadata)
    (index_lookup : ObjectId → Nat) (heads : List ObjectId)
    (walk_order : List Nat) : List CommitMetadata :=
  let phaseA := build_reverse_dag index_lookup storage heads
  (build_sorted_metadata_indicies sort_type walk_order phaseA.child_indices
    index_lookup storage).map (sval storage)

/-! ### Invariants for the Phase B proofs -/

/-- Parent slot indices of a commit: the expression
`storage[idx].parents.iter().map(|parent| index_lookup[parent])` used by
both phases (naming helper; definitionally what `phaseBStep` computes). -/
def parentsIdx (index_lookup : ObjectId → Nat)
    (storage : List CommitMetadata) (idx : Nat) : List Nat :=
  (sval storage idx).parents.map index_lookup

/-- One guarded iteration of the Phase B loop: `phaseBLoop (n+1) st`
applies this to `phaseBLoop n st` (see `phaseBLoop_succ`). -/
def phaseBAdvance (sort_type : SortType) (storage : List CommitMetadata)
    (index_lookup : ObjectId → Nat) (st : PhaseBState) : PhaseBState :=
  if st.no_child_options.isEmpty then st
  else phaseBStep sort_type storage index_lookup st

/-- Invariant carried through the inner parent-processing fold of one
Phase B iteration.  `em'` is the emitted list including the popped index
`idx`; `rest` is the not-yet-processed suffix of `idx`'s parent-index
list; `ac` is the `(no_child_options, child_indices)` accumulator. -/
structure FoldInv (sort_type : SortType) (storage : List CommitMetadata)
    (index_lookup : ObjectId → Nat) (W : List Nat) (idx : Nat)
    (em' : List Nat) (rest : List Nat)
    (ac : List Nat × List (List Nat)) : Prop where
  eligNodup : ac.1.Nodup
  eligW : ∀ x ∈ ac.1, x ∈ W
  eligNotEm : ∀ x ∈ ac.1, x ∉ em'
  emEmpty : ∀ x ∈ em', ac.2.getD x [] = []
  counts : ∀ p c : Nat, (ac.2.getD p []).count c =
    (if c ∈ W ∧ c ∉ em' then (parentsIdx index_lookup storage c).count p
     else 0) + (if c = idx then rest.count p else 0)
  eligIff : ∀ u ∈ W, u ∉ em' → (ac.2.getD u [] = [] ↔ u ∈ ac.1)
  sortedE : ac.1.Pairwise (keyLe sort_type storage)

/-- Inductive invariant of the Phase B loop over the walked index set
`W`. -/
structure InvB (sort_type : SortType) (storage : List CommitMetadata)
    (index_lookup : ObjectId → Nat) (W : List Nat) (st : PhaseBState) :
    Prop where
  emNodup : st.sorted_indices.Nodup
  eligNodup : st.no_child_options.Nodup
  disj : ∀ x ∈ st.no_child_options, x ∉ st.sorted_indices
  eligW : ∀ x ∈ st.no_child_options, x ∈ W
  emW : ∀ x ∈ st.sorted_indices, x ∈ W
  emEmpty : ∀ x ∈ st.sorted_indices, st.child_indices.getD x [] = []
  counts : ∀ p c : Nat, (st.child_indices.getD p []).count c =
    if c ∈ W ∧ c ∉ st.sorted_indices
    then (parentsIdx index_lookup storage c).count p else 0
  eligIff : ∀ u ∈ W, u ∉ st.sorted_indices →
    (st.child_indices.getD u [] = [] ↔ u ∈ st.no_child_options)
  sortedE : st.no_child_options.Pairwise (keyLe sort_type storage)
  topo : ∀ c ∈ W, ∀ p ∈ parentsIdx index_lookup storage c,
    ∀ l1 l2, st.sorted_indices = l1 ++ p :: l2 → c ∈ l1

/-! ### Invariants for the Phase A proofs -/

/-- Reachability between metadata slot indices by following parent
pointers (each step resolves a stored parent id through the lookup). -/
def ReachableFrom (index_lookup : ObjectId → Nat)
    (storage : List CommitMetadata) (heads0 : List Nat) (x : Nat) : Prop :=
  ∃ h ∈ heads0, Relation.ReflTransGen
    (fun a b => b ∈ parentsIdx index_lookup storage a) h x

/-- Inductive invariant of the Phase A walk: `heads0` is the list of
resolved head indices. -/
structure InvA (index_lookup : ObjectId → Nat)
    (storage : List CommitMetadata) (heads0 : List Nat)
    (st : PhaseAState) : Prop where
  stackRange : ∀ x ∈ st.to_walk, x < storage.length
  walkedRange : ∀ x ∈ st.walked, x < storage.length
  walkedNodup : st.walked.Nodup
  stackReach : ∀ x ∈ st.to_walk,
    ReachableFrom index_lookup storage heads0 x
  walkedReach : ∀ x ∈ st.walked,
    ReachableFrom index_lookup storage heads0 x
  closure : ∀ i ∈ st.walked, ∀ p ∈ parentsIdx index_lookup storage i,
    p ∈ st.walked ∨ p ∈ st.to_walk
  headsIn : ∀ h ∈ heads0, h ∈ st.walked ∨ h ∈ st.to_walk
  counts : ∀ p c : Nat, (st.child_indices.getD p []).count c =
    if c ∈ st.walked
    then (parentsIdx index_lookup storage c).count p else 0

/-- Termination potential of the Phase A loop: stack length plus, for
every not-yet-walked index, one plus its parent count. -/
def phaseAPotential (index_lookup : ObjectId → Nat)
    (storage : List CommitMetadata) (st : PhaseAState) : Nat :=
  st.to_walk.length +
    ((Finset.range storage.length).filter
      (fun i => i ∉ st.walked)).sum
      (fun i => 1 + (parentsIdx index_lookup storage i).length)

/-! ### Resolvability hypotheses and concrete examples -/

/-- Full-resolvability hypotheses for `metadata_iter`: every stored parent
id and every requested head resolves through the lookup to an in-range
slot whose stored id is that same id (the cache invariant of C5 at the
fixed point reached when the whole ancestry is resolvable). -/
structure ResolvableStore (index_lookup : ObjectId → Nat)
    (storage : List CommitMetadata) (heads : List ObjectId) : Prop where
  parentsOk : ∀ i < storage.length, ∀ q ∈ (sval storage i).parents,
    index_lookup q < storage.length ∧ (sval storage (index_lookup q)).id = q
  headsOk : ∀ h ∈ heads, index_lookup h < storage.length ∧
    (sval storage (index_lookup h)).id = h

/-- Concrete one-byte object ids for witnesses and counterexamples. -/
def exOid (n : Nat) : ObjectId := ⟨[n]⟩

/-- Concrete lookup sending `exOid n` to slot `n`. -/
def exLookup : ObjectId → Nat := fun o => o.id.headD 0

/-- Two-commit store with equal timestamps and no parents (exhibits the
hash-iteration-order sensitivity of Phase B). -/
def exStorageTies : List CommitMetadata :=
  [⟨exOid 0, [], 5, 5⟩, ⟨exOid 1, [], 5, 5⟩]

/-- Two-commit store with distinct timestamps and no parents. -/
def exStorageDistinct : List CommitMetadata :=
  [⟨exOid 0, [], 5, 5⟩, ⟨exOid 1, [], 7, 7⟩]

/-- Three-commit store: a merge commit on top of a two-commit chain. -/
def exStorageChain : List CommitMetadata :=
  [⟨exOid 0, [exOid 1, exOid 2], 10, 10⟩,
   ⟨exOid 1, [exOid 2], 5, 5⟩,
   ⟨exOid 2, [], 3, 3⟩]

/-- Initial state of the Phase B loop inside
`build_sorted_metadata_indicies` (definitionally the state that function
passes to `phaseBLoop`, see `build_sorted_eq_loop`). -/
def phaseBStart (sort_type : SortType) (storage : List CommitMetadata)
    (walked_indices : List Nat) (child_indices : List (List Nat)) :
    PhaseBState :=
  ⟨(get_childless_indices walked_indices child_indices).mergeSort
    (cmLe sort_type storage), child_indices, []⟩

/-! ### ObjectStore lookup (src/git/repo.rs, Repo::get_commit_metadata_idx)

The filesystem, flate2 and libgit2 are external; they appear as oracle
parameters.  `E` is the error type (`anyhow::Error` values are opaque;
`notFoundErr` stands for the `anyhow!("Failed to find requested commit
id: …")` value).  The function returns the result together with the
updated state, mirroring `&mut self`. -/

/-- Outcome of probing the loose-object file `objects/xx/…`: no such
file, an I/O or parse failure (which the source propagates with `?`), or
parsed metadata. -/
inductive LooseResult (E : Type) where
  | absent
  | failed (e : E)
  | found (m : CommitMetadataWithoutId)

/-- A resident pack, modelled by its `Pack::get_commit_metadata`
behaviour; the `WithoutId` payload reflects that `Pack` stamps the
requested id via `into_full_metadata`. -/
def PackFn (E : Type) := ObjectId → Except E (Option CommitMetadataWithoutId)

/-- The metadata subsystem state of `Repo`: resident packs, the
`ObjectId → slot` map, and the growable metadata table. -/
structure StoreState (E : Type) where
  packs : List (PackFn E)
  metadata_lookup : ObjectId → Option Nat
  metadata_storage : List CommitMetadata

/-- The paired mutation `metadata_lookup.insert(metadata.id, storage_idx);
metadata_storage.push(metadata)` (with `storage_idx` the pre-push table
length, as computed by the source). -/
def store_insert {E : Type} (st : StoreState E) (metadata : CommitMetadata) :
    StoreState E :=
  { st with
    metadata_lookup := fun x =>
      if x = metadata.id then some st.metadata_storage.length
      else st.metadata_lookup x,
    metadata_storage := st.metadata_storage ++ [metadata] }

/-- Model of the closure `search_packs_for_metadata`: first pack that
holds the id wins; `Ok(None)` falls through to the next pack; an error
aborts the scan (the remaining packs are not consulted). -/
def search_packs_for_metadata {E : Type} :
    List (PackFn E) → ObjectId → Except E (Option CommitMetadata)
  | [], _ => .ok none
  | pack :: rest, id =>
    match pack id with
    | .ok (some m) => .ok (some (m.into_full_metadata id))
    | .ok none => search_packs_for_metadata rest id
    | .error e => .error e

/-- Model of `Repo::get_commit_metadata_idx`.  Tier order: cache, loose
file, resident packs, pack-directory rescan (only when the resident scan
returned `Ok(None)`), then the libgit2 fallback when allowed. -/
def get_commit_metadata_idx {E : Type} (loose : ObjectId → LooseResult E)
    (rescanned : Except E (List (PackFn E)))
    (libgit2 : ObjectId → Except E CommitMetadataWithoutId)
    (allow_libgit2_fallback : Bool) (notFoundErr : E)
    (st : StoreState E) (id : ObjectId) : Except E Nat × StoreState E :=
  match st.metadata_lookup id with
  | some idx => (.ok idx, st)
  | none =>
    match loose id with
    | .found m =>
      (.ok st.metadata_storage.length,
        store_insert st (m.into_full_metadata id))
    | .failed e => (.error e, st)
    | .absent =>
      match search_packs_for_metadata st.packs id with
      | .ok (some metadata) =>
        (.ok st.metadata_storage.length, store_insert st metadata)
      | .ok none =>
        match rescanned with
        | .error e => (.error e, st)
        | .ok packs2 =>
          match search_packs_for_metadata packs2 id with
          | .ok (some metadata) =>
            (.ok st.metadata_storage.length,
              store_insert { st with packs := packs2 } metadata)
          | .ok none =>
            if !allow_libgit2_fallback then
              (.error notFoundErr, { st with packs := packs2 })
            else
              match libgit2 id with
              | .ok m =>
                (.ok st.metadata_storage.length,
                  store_insert { st with packs := packs2 }
                    (m.into_full_metadata id))
              | .error e => (.error e, { st with packs := packs2 })
          | .error _ =>
            if !allow_libgit2_fallback then
              (.error notFoundErr, { st with packs := packs2 })
            else
              match libgit2 id with
              | .ok m =>
                (.ok st.metadata_storage.length,
                  store_insert { st with packs := packs2 }
                    (m.into_full_metadata id))
              | .error e => (.error e, { st with packs := packs2 })
      | .error _ =>
        if !allow_libgit2_fallback then (.error notFoundErr, st)
        else
          match libgit2 id with
          | .ok m =>
            (.ok st.metadata_storage.length,
              store_insert st (m.into_full_metadata id))
          | .error e => (.error e, st)

/-- Cache well-formedness: every mapped slot is in range and stores
metadata whose id field is the mapped id. -/
def WfCache {E : Type} (st : StoreState E) : Prop :=
  ∀ id i, st.metadata_lookup id = some i →
    ∃ h : i < st.metadata_storage.length,
      (st.metadata_storage.get ⟨i, h⟩).id = id

/-- Sequential processing of a list of ids (the state evolution of an
arbitrary sequence of metadata lookups). -/
def process_ids {E : Type} (loose : ObjectId → LooseResult E)
    (rescanned : Except E (List (PackFn E)))
    (libgit2 : ObjectId → Except E CommitMetadataWithoutId)
    (allow_libgit2_fallback : Bool) (notFoundErr : E)
    (st : StoreState E) (ids : List ObjectId) : StoreState E :=
  ids.foldl (fun s i => (get_commit_metadata_idx loose rescanned libgit2
    allow_libgit2_fallback notFoundErr s i).2) st

/-- Concrete instances used to evaluate the store model on closed inputs. -/
def exMetaW : CommitMetadataWithoutId := ⟨[], 3, 3⟩

/-- A pack oracle that holds every id. -/
def exPackHit : ObjectId → Except Nat (Option CommitMetadataWithoutId) :=
  fun _ => .ok (some exMetaW)

/-- A loose-object oracle whose parse always fails with error code 7. -/
def exLooseFailed : ObjectId → LooseResult Nat := fun _ => .failed 7

/-- A loose-object oracle with no file present. -/
def exLooseAbsent : ObjectId → LooseResult Nat := fun _ => .absent

/-- A libgit2 oracle that always resolves. -/
def exLibgit2 : ObjectId → Except Nat CommitMetadataWithoutId :=
  fun _ => .ok exMetaW

/-- An empty store whose single resident pack holds every id. -/
def exStoreOnePack : StoreState Nat := ⟨[exPackHit], fun _ => none, []⟩

/-- An empty store with no resident packs. -/
def exStoreNoPacks : StoreState Nat := ⟨[], fun _ => none, []⟩

/-! ### Pack index v2 (src/git/pack.rs, index_impl)

The mmapped index file is a byte list; `readU32be` is
`u32::from_be_bytes(data[s..s+4])`, `cmpBytes` is `[u8]::cmp`
(lexicographic).  The search loop carries fuel; `none` means the fuel ran
out (every stated evaluation terminates within the supplied fuel). -/

def readU32be (data : List Nat) (start : Nat) : Nat :=
  data.getD start 0 * 0x1000000 + data.getD (start + 1) 0 * 0x10000 +
    data.getD (start + 2) 0 * 0x100 + data.getD (start + 3) 0

/-- `read_fanout(data, fanout_start, idx)`. -/
def read_fanout (data : List Nat) (fanout_start idx : Nat) : Nat :=
  readU32be data (fanout_start + idx * 4)

/-- Lexicographic byte-slice comparison, `<[u8] as Ord>::cmp`. -/
def cmpBytes : List Nat → List Nat → Ordering
  | [], [] => .eq
  | [], _ :: _ => .lt
  | _ :: _, [] => .gt
  | a :: xs, b :: ys =>
    match compare a b with
    | .eq => cmpBytes xs ys
    | o => o

/-- The slice `data[start..start+len]` (all uses below are in bounds). -/
def sliceBytes (data : List Nat) (start len : Nat) : List Nat :=
  (data.drop start).take len

/-- The `loop` of `binary_search_object_index`.  The source computes
`index = (lower_bound + upper_bound) / 2` before entering the loop and
again at the bottom of each iteration from the updated bounds; here the
same value is computed at the head of each iteration.  Note the body
compares `data[object_start + 20*index ..][..20]` with the target
*before* testing `lower_bound >= upper_bound`. -/
def bsLoop (data : List Nat) (object_start : Nat) (desired_obj : List Nat) :
    Nat → Nat → Nat → Option (Option Nat)
  | 0, _, _ => none
  | Nat.succ fuel, lower_bound, upper_bound =>
    let index := (lower_bound + upper_bound) / 2
    let item_start := object_start + 20 * index
    match cmpBytes (sliceBytes data item_start 20) desired_obj with
    | .eq => some (some index)
    | ord =>
      let lower2 := if ord = .lt then index else lower_bound
      let upper2 := if ord = .gt then index else upper_bound
      if lower2 ≥ upper2 then some none
      else
        let lower3 :=
          if lower2 + 1 = upper2 ∧ index = lower2 then lower2 + 1 else lower2
        bsLoop data object_start desired_obj fuel lower3 upper2

/-- `binary_search_object_index`: fan-out range for the first byte of
the id, then the search loop. -/
def binary_search_object_index (data : List Nat)
    (fanout_start object_start : Nat) (desired_obj : List Nat)
    (fuel : Nat) : Option (Option Nat) :=
  let b0 := desired_obj.headD 0
  let lower_bound :=
    if b0 = 0 then 0 else read_fanout data fanout_start (b0 - 1)
  let upper_bound := read_fanout data fanout_start b0
  bsLoop data object_start desired_obj fuel lower_bound upper_bound

/-- `offset_from_index`: a 4-byte big-endian offset-table read; the high
bit diverts to the unimplemented large-offset table. -/
def offset_from_index (data : List Nat) (offset_table_offset index : Nat) :
    Except String Nat :=
  let offset := readU32be data (offset_table_offset + index * 4)
  if 0x80000000 ≤ offset then .error "Large table lookup unimplemented"
  else .ok offset

/-- `PackIndexV2::object_offset`: `FANOUT_START = 8`,
`OBJECT_START = 8 + 256*4`. -/
def PackIndexV2.object_offset (data : List Nat) (obj : List Nat)
    (fuel : Nat) : Option (Except String (Option Nat)) :=
  let num_elems := read_fanout data 8 255
  match binary_search_object_index data 8 (8 + 256 * 4) obj fuel with
  | none => none
  | some none => some (.ok none)
  | some (some object_index) =>
    let offset_table_offset := (8 + 256 * 4) + num_elems * 20 + num_elems * 4
    some ((offset_from_index data offset_table_offset object_index).map some)

/-- The 20-byte id at position `i` of the sorted object table. -/
def objectIdAt (data : List Nat) (i : Nat) : List Nat :=
  sliceBytes data (8 + 256 * 4 + 20 * i) 20

/-- Well-formed v2 pack index: magic, version 2, the standard file
length (fan-out, object table, CRC table, offset table, two 20-byte
trailing checksums), object table strictly sorted in 20-byte
lexicographic order, and each fan-out entry `k` equal to the cumulative
count of ids whose first byte is at most `k`. -/
def packIndexV2Wf (data : List Nat) : Prop :=
  data.take 4 = [0xff, 0x74, 0x4f, 0x63] ∧
  readU32be data 4 = 2 ∧
  data.length = 8 + 256 * 4 + read_fanout data 8 255 * 20 +
    read_fanout data 8 255 * 4 + read_fanout data 8 255 * 4 + 40 ∧
  (∀ j, j < read_fanout data 8 255 → ∀ i, i < j →
    cmpBytes (objectIdAt data i) (objectIdAt data j) = Ordering.lt) ∧
  (∀ k, k < 256 → read_fanout data 8 k =
    ((List.range (read_fanout data 8 255)).filter
      (fun i => (objectIdAt data i).headD 0 ≤ k)).length)

/-- A well-formed single-object v2 index: every fan-out entry is 1, the
one table id is twenty zero bytes, CRC table `[1,0,0,0]`, offset table
`[0,0,0,5]`, zero trailer. -/
def exIdxData : List Nat :=
  [0xff, 0x74, 0x4f, 0x63, 0, 0, 0, 2] ++
  ((List.range 1024).map (fun i => if i % 4 = 3 then 1 else 0)) ++
  List.replicate 20 0 ++
  [1, 0, 0, 0] ++
  [0, 0, 0, 5] ++
  List.replicate 40 0

/-- A probe id absent from `exIdxData`: its bytes equal
`exIdxData[1052..1072]`, the CRC table, offset table and first trailer
bytes — exactly what the out-of-range probe at index 1 compares. -/
def exTarget : List Nat := [1, 0, 0, 0, 0, 0, 0, 5] ++ List.replicate 12 0

/-! ### Pack object parsing (src/git/pack.rs, pack_impl and PackData)

`RunOutcome` distinguishes the three ways `PackData::get_commit_metadata`
can leave: a returned `Ok` value, a returned `Err` (the caller can fall
back), and a crash of the process (`assert!` failure).  Decompression is
external (flate2), modelled by oracles; `finish_delta` stands for the
post-walk patch application and commit-text parse (pack.rs lines
355-425), which no claim concerns. -/

inductive RunOutcome (α : Type) where
  | ok (a : α)
  | err (e : String)
  | crash (msg : String)
deriving DecidableEq

inductive ObjectType where
  | Commit
  | Tree
  | Blob
  | Tag
  | OffsetDelta
  | RefDelta
deriving DecidableEq, Repr

/-- `Display for ObjectType`. -/
def ObjectType.display : ObjectType → String
  | .Commit => "commit"
  | .Tree => "tree"
  | .Blob => "blob"
  | .Tag => "tag"
  | .OffsetDelta => "offset delta"
  | .RefDelta => "ref delta"

/-- `TryFrom<u8> for ObjectType`. -/
def objectTypeOfNat (typ : Nat) : Except String ObjectType :=
  match typ with
  | 1 => .ok .Commit
  | 2 => .ok .Tree
  | 3 => .ok .Blob
  | 4 => .ok .Tag
  | 6 => .ok .OffsetDelta
  | 7 => .ok .RefDelta
  | _ => .error "Unknown object type"

structure ObjHeader where
  typ : ObjectType
  size : Nat
deriving DecidableEq, Repr

/-- The `while continue_reading` size loop of `read_pack_obj_header`;
consecutive 7-bit chunks land in disjoint bit ranges, so the source
`size |= chunk << shift` is `Nat.lor`. -/
def read_header_size (data : List Nat) :
    Nat → Bool → Nat → Nat → Nat → Option (Nat × Nat)
  | 0, _, _, _, _ => none
  | Nat.succ fuel, continue_reading, size, shift, i =>
    if continue_reading then
      let b := data.getD i 0
      read_header_size data fuel (b / 128 % 2 = 1)
        (Nat.lor size (b % 128 * 2 ^ shift)) (shift + 7) (i + 1)
    else some (size, i)

/-- `read_pack_obj_header(data)`: continuation bit, 3-bit type, size. -/
def read_pack_obj_header (data : List Nat) (fuel : Nat) :
    Option (Except String (ObjHeader × Nat)) :=
  let b0 := data.getD 0 0
  match objectTypeOfNat (b0 / 16 % 8) with
  | .error e => some (.error e)
  | .ok typ =>
    match read_header_size data fuel (decide (b0 / 128 % 2 = 1)) (b0 % 16) 4 1 with
    | none => none
    | some (size, i) => some (.ok (⟨typ, size⟩, i))

/-- The `while (b & 128) != 0` loop of
`parse_offset_delta_base_obj_offset`. -/
def parse_offset_loop (data : List Nat) :
    Nat → Nat → Nat → Nat → Option (Nat × Nat)
  | 0, _, _, _ => none
  | Nat.succ fuel, b, val, i =>
    if b / 128 % 2 = 1 then
      parse_offset_loop data fuel (data.getD (i + 1) 0)
        ((val + 1) * 128 + data.getD (i + 1) 0 % 128) (i + 1)
    else some (val, i + 1)

/-- `parse_offset_delta_base_obj_offset(data)`. -/
def parse_offset_delta_base_obj_offset (data : List Nat) (fuel : Nat) :
    Option (Nat × Nat) :=
  parse_offset_loop data fuel (data.getD 0 0) (data.getD 0 0 % 128) 0

/-- The delta-chain `loop` of the `ObjectType::OffsetDelta` arm: read
the base header; a non-delta base must be a commit (`assert!`, a crash
otherwise) and ends the walk at its data location with the accumulated
patch stack; an offset-delta base pushes its patch and hops backward. -/
def delta_chain_walk (data : List Nat) (pfuel : Nat) :
    Nat → Nat → List (Nat × Nat) →
    Option (RunOutcome (Nat × List (Nat × Nat)))
  | 0, _, _ => none
  | Nat.succ fuel, curr_data_loc, patch_stack =>
    match read_pack_obj_header (data.drop curr_data_loc) pfuel with
    | none => none
    | some (.error e) => some (.err e)
    | some (.ok (base_header, header_read_bytes)) =>
      if base_header.typ ≠ ObjectType.OffsetDelta then
        if base_header.typ = ObjectType.Commit then
          some (.ok (curr_data_loc + header_read_bytes, patch_stack))
        else
          some (.crash "assertion failed: base_header.typ == ObjectType::Commit")
      else
        match parse_offset_delta_base_obj_offset
            (data.drop (curr_data_loc + header_read_bytes)) pfuel with
        | none => none
        | some (base_ref_offset, read_bytes) =>
          delta_chain_walk data pfuel fuel (curr_data_loc - base_ref_offset)
            ((curr_data_loc + header_read_bytes + read_bytes,
              base_header.size) :: patch_stack)

/-- `PackData::get_commit_metadata`: dispatch on the outer header type.
`decompress_commit` is `decompress::decompress_commit_metadata` at a
byte offset; `finish_delta` is the post-walk patch application and
commit parse given the base data location and patch stack. -/
def PackData.get_commit_metadata (data : List Nat)
    (decompress_commit : Nat → Except String CommitMetadataWithoutId)
    (finish_delta : Nat → List (Nat × Nat) → RunOutcome CommitMetadataWithoutId)
    (pack_obj_location : Nat) (fuel : Nat) :
    Option (RunOutcome CommitMetadataWithoutId) :=
  match read_pack_obj_header (data.drop pack_obj_location) fuel with
  | none => none
  | some (.error e) => some (.err e)
  | some (.ok (header, pack_obj_data_offset)) =>
    match header.typ with
    | ObjectType.Commit =>
      some (match decompress_commit (pack_obj_location + pack_obj_data_offset) with
        | .ok m => RunOutcome.ok m
        | .error e => RunOutcome.err e)
    | ObjectType.OffsetDelta =>
      match parse_offset_delta_base_obj_offset
          (data.drop (pack_obj_location + pack_obj_data_offset)) fuel with
      | none => none
      | some (base_ref_offset, read_bytes) =>
        match delta_chain_walk data fuel fuel
            (pack_obj_location - base_ref_offset)
            [(pack_obj_location + pack_obj_data_offset + read_bytes,
              header.size)] with
        | none => none
        | some (.err e) => some (.err e)
        | some (.crash m) => some (.crash m)
        | some (.ok (base_data_loc, patch_stack)) =>
          some (finish_delta base_data_loc patch_stack)
    | t => some (.err ("Unimplemented parser for " ++ t.display))

/-- An offset-delta object at location 2 (header byte 0x65: type 6,
size 5) whose one-byte negative offset 0x02 points at location 0, where
the base header byte 0x23 declares type 2 — a tree. -/
def exPackBytes : List Nat := [0x23, 0, 0x65, 0x02]

/-- A decompression oracle that always succeeds. -/
def exDecompressCommit : Nat → Except String CommitMetadataWithoutId :=
  fun _ => .ok exMetaW

/-- A finish-delta oracle that always succeeds. -/
def exFinishDelta : Nat → List (Nat × Nat) → RunOutcome CommitMetadataWithoutId :=
  fun _ _ => .ok exMetaW

/-! ### History graph builder (src/git/graph.rs)

Coordinates are `Nat`: every reachable value is a list index or row
number, far from the `i32`/`usize` conversion failures the source
`try_into` guards (which trigger only beyond 2^31 commits). -/

structure GraphPoint where
  x : Nat
  y : Nat
deriving DecidableEq, Repr

structure Edge where
  a : GraphPoint
  b : GraphPoint
deriving DecidableEq, Repr

/-- `Edge::new`. -/
def Edge.new (x1 y1 x2 y2 : Nat) : Edge := ⟨⟨x1, y1⟩, ⟨x2, y2⟩⟩

structure CommitNode where
  position : GraphPoint
  id : ObjectId
deriving DecidableEq, Repr

structure HistoryGraph where
  nodes : List CommitNode
  edges : List Edge
deriving DecidableEq, Repr

structure TailData where
  oid : ObjectId
  edge_start_y : Nat
deriving DecidableEq, Repr

/-- Out-of-range `Vec` indexing aborts in Rust; the default is never hit
on the reachable states (`commit_tail_idx` is always in range). -/
def tdDefault : TailData := ⟨⟨[]⟩, 0⟩

structure GraphBuilder where
  nodes : List CommitNode
  edges : List Edge
  tails : List TailData
deriving DecidableEq, Repr

/-- `add_commit_to_node_list`. -/
def add_commit_to_node_list (x_idx : Nat) (commit : CommitMetadata)
    (node_list : List CommitNode) : List CommitNode :=
  let y := (node_list.getLast?.map (fun node => node.position.y + 1)).getD 0
  node_list ++ [⟨⟨x_idx, y⟩, commit.id⟩]

/-- `ensure_commit_in_vec`: index of the commit in the tail vector,
appending a fresh tail at the current row when absent. -/
def ensure_commit_in_vec (commit : CommitMetadata) (vec : List TailData)
    (y_pos : Nat) : Nat × List TailData :=
  match vec.findIdx? (fun tail_data => decide (tail_data.oid = commit.id)) with
  | some found_idx => (found_idx, vec)
  | none => (vec.length, vec ++ [⟨commit.id, y_pos⟩])

/-- One iteration of the `for parent_id in parent_ids` loop of
`replace_tail_with_parents`: state is (tails, replaced_self). -/
def replace_step (x_idx commit_y : Nat) (acc : List TailData × Bool)
    (parent_id : ObjectId) : List TailData × Bool :=
  if acc.1.any (fun tail_data => decide (tail_data.oid = parent_id)) then acc
  else if acc.2 then
    (acc.1 ++ [⟨parent_id, commit_y + 1⟩], true)
  else
    (acc.1.set x_idx ⟨parent_id, (acc.1.getD x_idx tdDefault).edge_start_y⟩,
      true)

/-- `replace_tail_with_parents`: returns the updated tails and, when the
commit replaced none of its parents, the removed tail. -/
def replace_tail_with_parents (parent_ids : List ObjectId)
    (x_idx commit_y : Nat) (tails : List TailData) :
    List TailData × Option TailData :=
  match parent_ids.foldl (replace_step x_idx commit_y) (tails, false) with
  | (ts, true) => (ts, none)
  | (ts, false) => (ts.eraseIdx x_idx, some (ts.getD x_idx tdDefault))

/-- The `iter_mut().enumerate().skip(commit_x_idx)` loop of
`draw_removed_node_edges`, over the suffix from `commit_x_idx` with `i`
the absolute index; returns the rewritten suffix and the pushed edges. -/
def drawRemovedGo (commit_x_idx commit_y_pos : Nat)
    (removed_node_above_parent : Bool) (removed_data : TailData) :
    Nat → List TailData → List TailData × List Edge
  | _, [] => ([], [])
  | i, tail :: rest =>
    let e1 := Edge.new (i + 1) tail.edge_start_y (i + 1) commit_y_pos
    let e2 := Edge.new (i + 1) commit_y_pos i (commit_y_pos + 1)
    let start2 :=
      if removed_node_above_parent ∧ i = commit_x_idx then
        removed_data.edge_start_y
      else commit_y_pos + 1
    let rec_result := drawRemovedGo commit_x_idx commit_y_pos
      removed_node_above_parent removed_data (i + 1) rest
    (⟨tail.oid, start2⟩ :: rec_result.1, e1 :: e2 :: rec_result.2)

/-- `draw_removed_node_edges`. -/
def draw_removed_node_edges (commit_x_idx commit_y_pos : Nat)
    (removed_node_above_parent : Bool) (removed_data : TailData)
    (tails : List TailData) (edges : List Edge) :
    List TailData × List Edge :=
  let go := drawRemovedGo commit_x_idx commit_y_pos
    removed_node_above_parent removed_data commit_x_idx
    (tails.drop commit_x_idx)
  (tails.take commit_x_idx ++ go.1, edges ++ go.2)

/-- `draw_parent_connections`: a diagonal from the commit to every other
tail that is one of its parents. -/
def draw_parent_connections (commit_x_idx commit_y_pos : Nat)
    (parent_ids : List ObjectId) (tails : List TailData)
    (edges : List Edge) : List Edge :=
  edges ++ tails.enum.filterMap (fun p =>
    if p.1 = commit_x_idx then none
    else if parent_ids.any (fun id => decide (id = p.2.oid)) then
      some (Edge.new commit_x_idx commit_y_pos p.1 (commit_y_pos + 1))
    else none)

/-- `finish_edges`: one trailing edge per still-open lane, down to
`end_y`. -/
def finish_edges (tails : List TailData) (end_y : Nat)
    (edges : List Edge) : List Edge :=
  edges ++ tails.enum.map (fun p =>
    Edge.new p.1 p.2.edge_start_y p.1 end_y)

/-- `GraphBuilder::process_commit`. -/
def GraphBuilder.process_commit (gb : GraphBuilder)
    (commit : CommitMetadata) : GraphBuilder :=
  let commit_y_pos := gb.nodes.length
  let ens := ensure_commit_in_vec commit gb.tails commit_y_pos
  let commit_tail_idx := ens.1
  let parent_ids := commit.parents
  let nodes2 := add_commit_to_node_list commit_tail_idx commit gb.nodes
  let rep := replace_tail_with_parents parent_ids commit_tail_idx
    commit_y_pos ens.2
  match rep.2 with
  | some removed_data =>
    let branch :=
      if removed_data.edge_start_y ≠ commit_y_pos then
        if commit_tail_idx < rep.1.length ∧
            parent_ids.any (fun id =>
              decide ((rep.1.getD commit_tail_idx tdDefault).oid = id)) then
          (true, gb.edges)
        else
          (false, gb.edges ++ [Edge.new commit_tail_idx
            removed_data.edge_start_y commit_tail_idx commit_y_pos])
      else (false, gb.edges)
    let drawn := draw_removed_node_edges commit_tail_idx commit_y_pos
      branch.1 removed_data rep.1 branch.2
    { nodes := nodes2,
      edges := draw_parent_connections commit_tail_idx commit_y_pos
        parent_ids drawn.1 drawn.2,
      tails := drawn.1 }
  | none =>
    { nodes := nodes2,
      edges := draw_parent_connections commit_tail_idx commit_y_pos
        parent_ids rep.1 gb.edges,
      tails := rep.1 }

/-- `GraphBuilder::build`. -/
def GraphBuilder.build (gb : GraphBuilder) : HistoryGraph :=
  ⟨gb.nodes, finish_edges gb.tails gb.nodes.length gb.edges⟩

/-- `build_git_history_graph`, given the commit sequence the revwalk
yields. -/
def build_graph (commits : List CommitMetadata) : HistoryGraph :=
  (commits.foldl GraphBuilder.process_commit ⟨[], [], []⟩).build

/-- Five commits: a merge whose two branches rejoin at a common root.
Lane 1 (the second parent) stays open from row 1 to row 3, so its
deferred lane edge spans two rows. -/
def exGraphCommits : List CommitMetadata :=
  [⟨⟨[10]⟩, [⟨[1]⟩, ⟨[2]⟩], 9, 9⟩,
   ⟨⟨[1]⟩, [⟨[3]⟩], 8, 8⟩,
   ⟨⟨[3]⟩, [⟨[4]⟩], 7, 7⟩,
   ⟨⟨[2]⟩, [⟨[4]⟩], 6, 6⟩,
   ⟨⟨[4]⟩, [], 5, 5⟩]

/-- The amended edge-shape invariant: every edge is either vertical
(same lane, non-decreasing rows) or joins two adjacent rows. -/
def EdgeShapeOk (e : Edge) : Prop :=
  (e.a.x = e.b.x ∧ e.a.y ≤ e.b.y) ∨ e.b.y = e.a.y + 1

/-- Nodes sit on consecutive rows 0, 1, 2, … -/
def NodesRows (nodes : List CommitNode) : Prop :=
  nodes.map (fun n => n.position.y) = List.range nodes.length

/-- Every open lane started at or before row `n`. -/
def TailsBound (tails : List TailData) (n : Nat) : Prop :=
  ∀ t ∈ tails, t.edge_start_y ≤ n

/-- All edges satisfy the amended shape invariant. -/
def EdgesOk (edges : List Edge) : Prop := ∀ e ∈ edges, EdgeShapeOk e

/-! ## Theorems -/

theorem decodeHex_encodeByte (b : Nat) (hb : b < 256) (rest : List Char)
    (racc : List Nat) (hrest : decodeHexChars rest = some racc) :
    decodeHexChars (encodeByteHex b ++ rest) = some (b :: racc) := by
  have hdig : ∀ n < 16, hexCharValue (hexDigitLower n) = some n := by decide
  have hhi : b / 16 < 16 := Nat.div_lt_of_lt_mul (by omega)
  have hlo : b % 16 < 16 := Nat.mod_lt _ (by omega)
  have hb' : b / 16 * 16 + b % 16 = b := by
    rw [Nat.mul_comm]; exact Nat.div_add_mod b 16
  simp [encodeByteHex, decodeHexChars, hdig _ hhi, hdig _ hlo, hrest, hb']

theorem decodeHex_render (l : List Nat) (h : ∀ b ∈ l, b < 256) :
    decodeHexChars ((l.map encodeByteHex).flatten) = some l := by
  induction l with
  | nil => rfl
  | cons b t ih =>
    have hb : b < 256 := h b (List.mem_cons_self _ _)
    have ht := ih (fun x hx => h x (List.mem_cons_of_mem _ hx))
    simpa using decodeHex_encodeByte b hb _ _ ht

theorem render_length (o : ObjectId) (h : o.id.length = 20) :
    o.render.length = 40 := by
  have : ∀ l : List Nat, ((l.map encodeByteHex).flatten).length = 2 * l.length := by
    intro l
    induction l with
    | nil => rfl
    | cons b t ih => simp [encodeByteHex] at ih ⊢; omega
  rw [ObjectId.render, this, h]

/-- C10.  Round-trip: for every 20-byte ObjectId, parsing its display
string (40 lowercase hex characters) returns the identical ObjectId; and
every input string whose length is not exactly 40 is rejected with the
length error. -/
theorem C10_objectid_roundtrip :
    (∀ o : ObjectId, o.Wf → ObjectId.fromStr o.render = .ok o) ∧
    (∀ s : List Char, s.length ≠ 40 →
      ObjectId.fromStr s = .error "Object ID strings should be 40 chars") := by
  constructor
  · intro o hwf
    obtain ⟨hlen, hbytes⟩ := hwf
    unfold ObjectId.fromStr
    rw [if_neg (by rw [render_length o hlen]; omega)]
    rw [ObjectId.render, decodeHex_render o.id hbytes]
  · intro s hs
    unfold ObjectId.fromStr
    rw [if_pos hs]

/-- Witness for C10 at a concrete input: the all-zero id round-trips, and a
39-character string is rejected. -/
theorem C10_objectid_roundtrip_witness :
    ObjectId.fromStr (ObjectId.render ⟨List.replicate 20 0⟩) =
      .ok ⟨List.replicate 20 0⟩ ∧
    ObjectId.fromStr (List.replicate 39 'a') =
      .error "Object ID strings should be 40 chars" :=
  ⟨C10_objectid_roundtrip.1 ⟨List.replicate 20 0⟩ (by decide),
   C10_objectid_roundtrip.2 (List.replicate 39 'a') (by decide)⟩

theorem compare_commit_metadata_eq_key (a b : CommitMetadata)
    (s : SortType) :
    compare_commit_metadata a b s = compare (sortKey s a) (sortKey s b) := by
  cases s <;> rfl

/-! ### List helper lemmas -/

theorem insertIdx_eq_take_append_drop {α : Type} (a : α) :
    ∀ (n : Nat) (l : List α), n ≤ l.length →
      l.insertIdx n a = l.take n ++ a :: l.drop n := by
  intro n
  induction n with
  | zero => intro l _; simp [List.insertIdx_zero]
  | succ m ih =>
    intro l hl
    cases l with
    | nil => simp at hl
    | cons x t =>
      simp only [List.insertIdx_succ_cons, List.take_succ_cons,
        List.drop_succ_cons, List.cons_append, List.cons.injEq, true_and]
      exact ih t (by simpa using hl)

theorem getD_ne_nil_lt_length (ci : List (List Nat)) (p : Nat)
    (h : ci.getD p [] ≠ []) : p < ci.length := by
  by_contra hc
  rw [List.getD_eq_getElem?_getD, List.getElem?_eq_none (by omega)] at h
  simp at h

theorem getD_set_eq (ci : List (List Nat)) (p : Nat) (x : List Nat)
    (hp : p < ci.length) : (ci.set p x).getD p [] = x := by
  rw [List.getD_eq_getElem?_getD, List.getElem?_set, if_pos rfl, if_pos hp]
  rfl

theorem getD_set_ne (ci : List (List Nat)) (p q : Nat) (x : List Nat)
    (hpq : p ≠ q) : (ci.set p x).getD q [] = ci.getD q [] := by
  rw [List.getD_eq_getElem?_getD, List.getElem?_set, if_neg hpq,
    ← List.getD_eq_getElem?_getD]

theorem mem_getD_of_count_pos (l : List Nat) (c : Nat)
    (h : 0 < l.count c) : c ∈ l := List.count_pos_iff.mp h

theorem eq_nil_of_all_count_zero (l : List Nat)
    (h : ∀ c, l.count c = 0) : l = [] := by
  cases l with
  | nil => rfl
  | cons x t =>
    have := h x
    simp [List.count_cons] at this

/-! ### Sort-key ordering facts -/

theorem cmLe_true_iff (sort_type : SortType) (storage : List CommitMetadata)
    (a b : Nat) :
    cmLe sort_type storage a b = true ↔ keyLe sort_type storage a b := by
  unfold cmLe keyLe
  rw [decide_eq_true_iff, compare_commit_metadata_eq_key, Ne,
    compare_gt_iff_gt]
  constructor
  · intro h; omega
  · intro h hc; omega

theorem cmLe_trans (sort_type : SortType) (storage : List CommitMetadata) :
    ∀ a b c, cmLe sort_type storage a b = true →
      cmLe sort_type storage b c = true →
      cmLe sort_type storage a c = true := by
  intro a b c hab hbc
  rw [cmLe_true_iff] at *
  exact le_trans hab hbc

theorem cmLe_total (sort_type : SortType) (storage : List CommitMetadata) :
    ∀ a b, (cmLe sort_type storage a b || cmLe sort_type storage b a) = true := by
  intro a b
  rcases le_total (sortKey sort_type (sval storage a))
    (sortKey sort_type (sval storage b)) with h | h
  · rw [Bool.or_eq_true]; left; exact (cmLe_true_iff _ _ _ _).mpr h
  · rw [Bool.or_eq_true]; right; exact (cmLe_true_iff _ _ _ _).mpr h

/-! ### Binary search specification -/

theorem binarySearchGo_spec (key : Nat → Int) (t : Int) (l : List Nat)
    (hsort : l.Pairwise (fun a b => key a ≤ key b)) :
    ∀ (fuel left right : Nat), left ≤ right → right ≤ l.length →
    right - left < fuel →
    (∀ i, i < left → ∀ hi : i < l.length, key (l.get ⟨i, hi⟩) < t) →
    (∀ i, right ≤ i → ∀ hi : i < l.length, t < key (l.get ⟨i, hi⟩)) →
    binarySearchGo l (fun x => compare (key x) t) fuel left right ≤ l.length ∧
    (∀ i, i < binarySearchGo l (fun x => compare (key x) t) fuel left right →
      ∀ hi : i < l.length, key (l.get ⟨i, hi⟩) ≤ t) ∧
    (∀ i, binarySearchGo l (fun x => compare (key x) t) fuel left right ≤ i →
      ∀ hi : i < l.length, t ≤ key (l.get ⟨i, hi⟩)) := by
  have hmono : ∀ (i j : Nat) (hi : i < l.length) (hj : j < l.length),
      i ≤ j → key (l.get ⟨i, hi⟩) ≤ key (l.get ⟨j, hj⟩) := by
    intro i j hi hj hij
    rcases Nat.eq_or_lt_of_le hij with rfl | hlt
    · exact le_refl _
    · exact List.pairwise_iff_get.mp hsort ⟨i, hi⟩ ⟨j, hj⟩ hlt
  intro fuel
  induction fuel with
  | zero => intro left right h1 h2 h3; omega
  | succ f ih =>
    intro left right hlr hrl hfuel hlow hhigh
    rw [binarySearchGo]
    by_cases hcase : left < right
    · rw [if_pos hcase]
      have hmidlt : left + (right - left) / 2 < right := by omega
      have hmid : left + (right - left) / 2 < l.length := by omega
      have hgetd : l.getD (left + (right - left) / 2) 0 =
          l.get ⟨left + (right - left) / 2, hmid⟩ := by
        rw [List.getD_eq_getElem?_getD, List.getElem?_eq_getElem hmid]
        rfl
      rcases lt_trichotomy (key (l.get ⟨left + (right - left) / 2, hmid⟩)) t
        with hk | hk | hk
      · rw [hgetd, compare_lt_iff_lt.mpr hk]
        exact ih (left + (right - left) / 2 + 1) right (by omega) hrl
          (by omega)
          (fun i hilt hi => lt_of_le_of_lt
            (hmono i (left + (right - left) / 2) hi hmid (by omega)) hk)
          hhigh
      · rw [hgetd, compare_eq_iff_eq.mpr hk]
        dsimp only
        refine ⟨by omega, ?_, ?_⟩
        · intro i hilt hi
          exact hk ▸ hmono i (left + (right - left) / 2) hi hmid (by omega)
        · intro i hile hi
          exact hk ▸ hmono (left + (right - left) / 2) i hmid hi hile
      · rw [hgetd, compare_gt_iff_gt.mpr hk]
        exact ih left (left + (right - left) / 2) (by omega) (by omega)
          (by omega) hlow
          (fun i hile hi => lt_of_lt_of_le hk
            (hmono (left + (right - left) / 2) i hmid hi hile))
    · rw [if_neg hcase]
      refine ⟨by omega, ?_, ?_⟩
      · intro i hilt hi; exact le_of_lt (hlow i hilt hi)
      · intro i hile hi; exact le_of_lt (hhigh i (by omega) hi)

theorem insert_no_child_spec (sort_type : SortType)
    (storage : List CommitMetadata) (elig : List Nat) (p : Nat)
    (hs : elig.Pairwise (keyLe sort_type storage)) :
    List.Pairwise (keyLe sort_type storage)
      (insert_no_child_option sort_type storage elig p) ∧
    (insert_no_child_option sort_type storage elig p).Perm (p :: elig) := by
  have hcomp : (fun x => compare_commit_metadata (sval storage x)
      (sval storage p) sort_type) =
      fun x => compare (sortKey sort_type (sval storage x))
        (sortKey sort_type (sval storage p)) :=
    funext fun x => compare_commit_metadata_eq_key _ _ _
  unfold insert_no_child_option
  rw [hcomp]
  obtain ⟨hlen, hlow, hhigh⟩ := binarySearchGo_spec
    (fun x => sortKey sort_type (sval storage x))
    (sortKey sort_type (sval storage p)) elig hs (elig.length + 1) 0
    elig.length (by omega) le_rfl (by omega)
    (fun i hi => absurd hi (by omega))
    (fun i hi hlt => absurd hlt (by omega))
  set pos := binarySearchGo elig
    (fun x => compare (sortKey sort_type (sval storage x))
      (sortKey sort_type (sval storage p)))
    (elig.length + 1) 0 elig.length with hposdef
  rw [insertIdx_eq_take_append_drop p pos elig hlen]
  constructor
  · rw [List.pairwise_append]
    refine ⟨List.Pairwise.sublist (List.take_sublist _ _) hs, ?_, ?_⟩
    · rw [List.pairwise_cons]
      refine ⟨?_, List.Pairwise.sublist (List.drop_sublist _ _) hs⟩
      intro y hy
      obtain ⟨⟨j, hj⟩, hget⟩ := List.mem_iff_get.mp hy
      have hj' : pos + j < elig.length := by
        rw [List.length_drop] at hj; omega
      have hdg : (elig.drop pos).get ⟨j, hj⟩ = elig.get ⟨pos + j, hj'⟩ :=
        (List.get_drop elig hj').symm
      rw [← hget, hdg]
      exact hhigh _ (by omega) hj'
    · intro x hx y hy
      obtain ⟨⟨i, hi⟩, hgx⟩ := List.mem_iff_get.mp hx
      have hitake : i < elig.length := by
        have := List.length_take_le pos elig
        omega
      have hipos : i < pos := by
        rw [List.length_take] at hi
        omega
      have hxval : x = elig.get ⟨i, hitake⟩ := by
        rw [← hgx, List.get_take elig hitake hipos]
      rcases List.mem_cons.mp hy with rfl | hy2
      · rw [hxval]; exact hlow i hipos hitake
      · obtain ⟨⟨j, hj⟩, hgy⟩ := List.mem_iff_get.mp hy2
        have hj' : pos + j < elig.length := by
          rw [List.length_drop] at hj; omega
        have hyval : y = elig.get ⟨pos + j, hj'⟩ := by
          rw [← hgy, List.get_drop elig hj']
        rw [hxval, hyval]
        exact List.pairwise_iff_get.mp hs ⟨i, hitake⟩ ⟨pos + j, hj'⟩
          (Fin.mk_lt_mk.mpr (by omega))
  · have h1 : (List.take pos elig ++ p :: List.drop pos elig).Perm
        (p :: (List.take pos elig ++ List.drop pos elig)) := List.perm_middle
    rw [List.take_append_drop] at h1
    exact h1

/-! ### Phase B invariant preservation -/

theorem parentsIdx_def (index_lookup : ObjectId → Nat)
    (storage : List CommitMetadata) (idx : Nat) :
    parentsIdx index_lookup storage idx =
      (sval storage idx).parents.map index_lookup := rfl

theorem process_parent_preserves (sort_type : SortType)
    (storage : List CommitMetadata) (index_lookup : ObjectId → Nat)
    (W : List Nat) (idx : Nat) (em' : List Nat) (p : Nat)
    (rest : List Nat) (ac : List Nat × List (List Nat))
    (hidxem : idx ∈ em') (hpW : p ∈ W)
    (hinv : FoldInv sort_type storage index_lookup W idx em' (p :: rest) ac) :
    FoldInv sort_type storage index_lookup W idx em' rest
      (process_parent sort_type storage idx ac p) ∧
    (∀ x ∈ ac.1, x ∈ (process_parent sort_type storage idx ac p).1) := by
  have hcnt : (ac.2.getD p []).count idx = rest.count p + 1 := by
    have h := hinv.counts p idx
    rw [if_neg (fun hc => hc.2 hidxem), if_pos rfl,
      List.count_cons_self] at h
    simpa using h
  have hnnil : ac.2.getD p [] ≠ [] := by
    intro h0; rw [h0] at hcnt; simp at hcnt
  have hplen : p < ac.2.length := getD_ne_nil_lt_length _ _ hnnil
  have hpNotEm : p ∉ em' := fun h => hnnil (hinv.emEmpty p h)
  have hpNotElig : p ∉ ac.1 :=
    fun hmem => hnnil ((hinv.eligIff p hpW hpNotEm).mpr hmem)
  have hgp : (ac.2.set p ((ac.2.getD p []).erase idx)).getD p [] =
      (ac.2.getD p []).erase idx := getD_set_eq _ _ _ hplen
  have hgq : ∀ q, q ≠ p →
      (ac.2.set p ((ac.2.getD p []).erase idx)).getD q [] =
        ac.2.getD q [] :=
    fun q hq => getD_set_ne _ _ _ _ (fun h => hq h.symm)
  have hstep : process_parent sort_type storage idx ac p =
      (if (ac.2.set p ((ac.2.getD p []).erase idx)).getD p [] |>.isEmpty
       then insert_no_child_option sort_type storage ac.1 p else ac.1,
       ac.2.set p ((ac.2.getD p []).erase idx)) := rfl
  have hcountp : ∀ c,
      ((ac.2.set p ((ac.2.getD p []).erase idx)).getD p []).count c =
        (ac.2.getD p []).count c - (if idx = c then 1 else 0) := by
    intro c
    rw [hgp, List.count_erase]
    simp [beq_iff_eq]
  have counts2 : ∀ q c : Nat,
      ((ac.2.set p ((ac.2.getD p []).erase idx)).getD q []).count c =
        (if c ∈ W ∧ c ∉ em'
         then (parentsIdx index_lookup storage c).count q else 0) +
        (if c = idx then rest.count q else 0) := by
    intro q c
    by_cases hq : q = p
    · subst hq
      rw [hcountp c, hinv.counts q c]
      by_cases hc : c = idx
      · have hcem : c ∈ em' := hc ▸ hidxem
        rw [if_pos hc, if_pos hc, if_pos hc.symm,
          if_neg (fun hh : c ∈ W ∧ c ∉ em' => hh.2 hcem),
          List.count_cons_self]
        omega
      · rw [if_neg hc, if_neg hc,
          if_neg (show ¬ idx = c from fun h => hc h.symm)]
        omega
    · rw [hgq q hq, hinv.counts q c]
      by_cases hc : c = idx
      · rw [if_pos hc, if_pos hc, List.count_cons_of_ne hq rest]
      · rw [if_neg hc, if_neg hc]
  have emEmpty2 : ∀ x ∈ em',
      (ac.2.set p ((ac.2.getD p []).erase idx)).getD x [] = [] := by
    intro x hx
    rw [hgq x (fun h => hpNotEm (h ▸ hx))]
    exact hinv.emEmpty x hx
  rw [hstep]
  by_cases hemp :
      ((ac.2.set p ((ac.2.getD p []).erase idx)).getD p []).isEmpty = true
  · have hnilp : (ac.2.set p ((ac.2.getD p []).erase idx)).getD p [] = [] :=
      List.isEmpty_iff.mp hemp
    obtain ⟨hPw, hPerm⟩ :=
      insert_no_child_spec sort_type storage ac.1 p hinv.sortedE
    rw [if_pos hemp]
    refine ⟨⟨?_, ?_, ?_, emEmpty2, counts2, ?_, hPw⟩, ?_⟩
    · exact (hPerm.nodup_iff).mpr
        (List.nodup_cons.mpr ⟨hpNotElig, hinv.eligNodup⟩)
    · intro x hx
      rcases List.mem_cons.mp ((hPerm.mem_iff).mp hx) with rfl | hx2
      · exact hpW
      · exact hinv.eligW x hx2
    · intro x hx
      rcases List.mem_cons.mp ((hPerm.mem_iff).mp hx) with rfl | hx2
      · exact hpNotEm
      · exact hinv.eligNotEm x hx2
    · intro u huW huem
      by_cases hup : u = p
      · subst hup
        constructor
        · intro _
          exact (hPerm.mem_iff).mpr (List.mem_cons_self _ _)
        · intro _
          exact hnilp
      · rw [hgq u hup]
        rw [hinv.eligIff u huW huem]
        constructor
        · intro h
          exact (hPerm.mem_iff).mpr (List.mem_cons_of_mem _ h)
        · intro h
          rcases List.mem_cons.mp ((hPerm.mem_iff).mp h) with rfl | h2
          · exact absurd rfl hup
          · exact h2
    · intro x hx
      exact (hPerm.mem_iff).mpr (List.mem_cons_of_mem _ hx)
  · have hnnilp : (ac.2.set p ((ac.2.getD p []).erase idx)).getD p [] ≠ [] :=
      fun h => hemp (List.isEmpty_iff.mpr h)
    rw [if_neg hemp]
    refine ⟨⟨hinv.eligNodup, hinv.eligW, hinv.eligNotEm, emEmpty2, counts2,
      ?_, hinv.sortedE⟩, fun x hx => hx⟩
    intro u huW huem
    by_cases hup : u = p
    · subst hup
      exact ⟨fun h => absurd h hnnilp, fun h => absurd h hpNotElig⟩
    · rw [hgq u hup]
      exact hinv.eligIff u huW huem

theorem process_parents_fold (sort_type : SortType)
    (storage : List CommitMetadata) (index_lookup : ObjectId → Nat)
    (W : List Nat) (idx : Nat) (em' : List Nat) (hidxem : idx ∈ em') :
    ∀ (rest : List Nat) (ac : List Nat × List (List Nat)),
    (∀ p ∈ rest, p ∈ W) →
    FoldInv sort_type storage index_lookup W idx em' rest ac →
    FoldInv sort_type storage index_lookup W idx em' []
      (rest.foldl (process_parent sort_type storage idx) ac) ∧
    (∀ x ∈ ac.1,
      x ∈ (rest.foldl (process_parent sort_type storage idx) ac).1) := by
  intro rest
  induction rest with
  | nil => intro ac _ hinv; exact ⟨hinv, fun x hx => hx⟩
  | cons p rest2 ih =>
    intro ac hrW hinv
    obtain ⟨hinv2, hmem2⟩ := process_parent_preserves sort_type storage
      index_lookup W idx em' p rest2 ac hidxem
      (hrW p (List.mem_cons_self _ _)) hinv
    obtain ⟨hinv3, hmem3⟩ := ih (process_parent sort_type storage idx ac p)
      (fun q hq => hrW q (List.mem_cons_of_mem _ hq)) hinv2
    exact ⟨hinv3, fun x hx => hmem3 x (hmem2 x hx)⟩

theorem append_singleton_eq_split (l1 l2 em : List Nat) (p idx : Nat)
    (h : l1 ++ p :: l2 = em ++ [idx]) :
    (l2 = [] ∧ l1 = em ∧ p = idx) ∨
    ∃ l3, l2 = l3 ++ [idx] ∧ em = l1 ++ p :: l3 := by
  rcases List.eq_nil_or_concat l2 with rfl | ⟨l3, x, rfl⟩
  · left
    obtain ⟨h1, h2⟩ := List.append_inj' h rfl
    refine ⟨rfl, h1, ?_⟩
    injection h2
  · right
    rw [List.concat_eq_append, ← List.cons_append, ← List.append_assoc] at h
    obtain ⟨h1, h2⟩ := List.append_inj' h rfl
    injection h2 with h2
    exact ⟨l3, by rw [List.concat_eq_append, h2], h1.symm⟩

theorem phaseBStep_eq (sort_type : SortType) (storage : List CommitMetadata)
    (index_lookup : ObjectId → Nat) (st : PhaseBState) (idx : Nat)
    (hpop : st.no_child_options.getLast? = some idx) :
    phaseBStep sort_type storage index_lookup st =
      ⟨((parentsIdx index_lookup storage idx).foldl
          (process_parent sort_type storage idx)
          (st.no_child_options.dropLast, st.child_indices)).1,
        ((parentsIdx index_lookup storage idx).foldl
          (process_parent sort_type storage idx)
          (st.no_child_options.dropLast, st.child_indices)).2,
        st.sorted_indices ++ [idx]⟩ := by
  simp only [phaseBStep, hpop, parentsIdx_def]

theorem phaseBStep_preserves (sort_type : SortType)
    (storage : List CommitMetadata) (index_lookup : ObjectId → Nat)
    (W : List Nat)
    (hClosed : ∀ i ∈ W, ∀ q ∈ parentsIdx index_lookup storage i, q ∈ W)
    (st : PhaseBState) (idx : Nat)
    (hpop : st.no_child_options.getLast? = some idx)
    (hinv : InvB sort_type storage index_lookup W st) :
    InvB sort_type storage index_lookup W
      (phaseBStep sort_type storage index_lookup st) ∧
    (phaseBStep sort_type storage index_lookup st).sorted_indices =
      st.sorted_indices ++ [idx] ∧
    (∀ x ∈ st.no_child_options, x ≠ idx →
      x ∈ (phaseBStep sort_type storage index_lookup st).no_child_options) ∧
    (∀ b ∈ st.no_child_options, keyLe sort_type storage b idx) := by
  have hne : st.no_child_options ≠ [] := by
    intro h; rw [h] at hpop; simp at hpop
  have hlast : st.no_child_options.getLast hne = idx := by
    rw [List.getLast?_eq_getLast _ hne] at hpop
    injection hpop
  have hdecomp :
      st.no_child_options.dropLast ++ [idx] = st.no_child_options := by
    have h := List.dropLast_append_getLast hne
    rw [hlast] at h
    exact h
  have hidxElig : idx ∈ st.no_child_options := by
    rw [← hdecomp]
    exact List.mem_append_right _ (List.mem_singleton.mpr rfl)
  have hidxW : idx ∈ W := hinv.eligW idx hidxElig
  have hidxNotEm : idx ∉ st.sorted_indices := hinv.disj idx hidxElig
  have hEmptyIdx : st.child_indices.getD idx [] = [] :=
    (hinv.eligIff idx hidxW hidxNotEm).mpr hidxElig
  have hIdxNotDrop : idx ∉ st.no_child_options.dropLast := by
    have hnd := hinv.eligNodup
    rw [← hdecomp] at hnd
    obtain ⟨-, -, hdisj⟩ := List.nodup_append.mp hnd
    intro hmem
    exact hdisj hmem (List.mem_singleton.mpr rfl)
  have hParentsEmitted : ∀ c ∈ W,
      idx ∈ parentsIdx index_lookup storage c → c ∈ st.sorted_indices := by
    intro c hcW hcp
    by_contra hcem
    have h := hinv.counts idx c
    rw [hEmptyIdx, if_pos ⟨hcW, hcem⟩] at h
    have hpos : 0 < (parentsIdx index_lookup storage c).count idx :=
      List.count_pos_iff.mpr hcp
    simp at h
    omega
  have hfold0 : FoldInv sort_type storage index_lookup W idx
      (st.sorted_indices ++ [idx]) (parentsIdx index_lookup storage idx)
      (st.no_child_options.dropLast, st.child_indices) := by
    refine ⟨List.Nodup.sublist (List.dropLast_sublist _) hinv.eligNodup,
      ?_, ?_, ?_, ?_, ?_,
      List.Pairwise.sublist (List.dropLast_sublist _) hinv.sortedE⟩
    · intro x hx
      exact hinv.eligW x ((List.dropLast_sublist _).subset hx)
    · intro x hx hxem
      rcases List.mem_append.mp hxem with hxem | hxem
      · exact hinv.disj x ((List.dropLast_sublist _).subset hx) hxem
      · rw [List.mem_singleton.mp hxem] at hx
        exact hIdxNotDrop hx
    · intro x hx
      rcases List.mem_append.mp hx with hx | hx
      · exact hinv.emEmpty x hx
      · rw [List.mem_singleton.mp hx]
        exact hEmptyIdx
    · intro p c
      dsimp only
      have h := hinv.counts p c
      by_cases hc : c = idx
      · rw [hc] at h ⊢
        rw [if_pos ⟨hidxW, hidxNotEm⟩] at h
        rw [if_pos rfl,
          if_neg (fun hh : idx ∈ W ∧ idx ∉ st.sorted_indices ++ [idx] =>
            hh.2 (List.mem_append_right _ (List.mem_singleton.mpr rfl)))]
        omega
      · rw [if_neg hc]
        rw [h]
        by_cases hcW : c ∈ W ∧ c ∉ st.sorted_indices
        · rw [if_pos hcW, if_pos ⟨hcW.1, fun hmem => by
            rcases List.mem_append.mp hmem with hmem | hmem
            · exact hcW.2 hmem
            · exact hc (List.mem_singleton.mp hmem)⟩]
          omega
        · rw [if_neg hcW, if_neg (fun hh : c ∈ W ∧
            c ∉ st.sorted_indices ++ [idx] =>
              hcW ⟨hh.1, fun hmem =>
                hh.2 (List.mem_append_left _ hmem)⟩)]
    · intro u huW huem
      have hu1 : u ∉ st.sorted_indices :=
        fun h => huem (List.mem_append_left _ h)
      have hu2 : u ≠ idx :=
        fun h => huem (h ▸ List.mem_append_right _ (List.mem_singleton.mpr rfl))
      rw [hinv.eligIff u huW hu1]
      have hiff : u ∈ st.no_child_options ↔
          u ∈ st.no_child_options.dropLast ++ [idx] := by rw [hdecomp]
      constructor
      · intro h
        rcases List.mem_append.mp (hiff.mp h) with h | h
        · exact h
        · exact absurd (List.mem_singleton.mp h) hu2
      · intro h
        exact hiff.mpr (List.mem_append_left _ h)
  obtain ⟨hF, hMem⟩ := process_parents_fold sort_type storage index_lookup W
    idx (st.sorted_indices ++ [idx])
    (List.mem_append_right _ (List.mem_singleton.mpr rfl))
    (parentsIdx index_lookup storage idx)
    (st.no_child_options.dropLast, st.child_indices)
    (hClosed idx hidxW) hfold0
  rw [phaseBStep_eq sort_type storage index_lookup st idx hpop]
  refine ⟨⟨?_, hF.eligNodup, hF.eligNotEm, hF.eligW, ?_, hF.emEmpty,
      ?_, hF.eligIff, hF.sortedE, ?_⟩, rfl, ?_, ?_⟩
  · rw [List.nodup_append]
    refine ⟨hinv.emNodup, by simp, ?_⟩
    intro a ha hmem
    rw [List.mem_singleton.mp hmem] at ha
    exact hidxNotEm ha
  · intro x hx
    rcases List.mem_append.mp hx with hx | hx
    · exact hinv.emW x hx
    · rw [List.mem_singleton.mp hx]; exact hidxW
  · intro p c
    have h := hF.counts p c
    simpa using h
  · intro c hcW p hp l1 l2 heq
    rcases append_singleton_eq_split l1 l2 st.sorted_indices p idx heq.symm
      with ⟨-, hl1, hpidx⟩ | ⟨l3, -, hem⟩
    · rw [hl1]
      exact hParentsEmitted c hcW (hpidx ▸ hp)
    · exact hinv.topo c hcW p hp l1 l3 hem
  · intro x hx hxidx
    have hxd : x ∈ st.no_child_options.dropLast := by
      rw [← hdecomp] at hx
      rcases List.mem_append.mp hx with h | h
      · exact h
      · exact absurd (List.mem_singleton.mp h) hxidx
    exact hMem x hxd
  · intro b hb
    have hp := hinv.sortedE
    rw [← hdecomp] at hp hb
    obtain ⟨-, -, hcross⟩ := List.pairwise_append.mp hp
    rcases List.mem_append.mp hb with hb | hb
    · exact hcross b hb idx (List.mem_singleton.mpr rfl)
    · rw [List.mem_singleton.mp hb]
      exact le_refl _

/-! ### Phase A walk postconditions -/

theorem ensureLen_getD (ci : List (List Nat)) (p q : Nat) :
    (ensureLen ci p).getD q [] = ci.getD q [] := by
  unfold ensureLen
  by_cases h : ci.length ≤ p
  · rw [if_pos h]
    rw [List.getD_eq_getElem?_getD, List.getD_eq_getElem?_getD]
    by_cases hq : q < ci.length
    · rw [List.getElem?_append_left hq]
    · rw [List.getElem?_append_right (by omega),
        List.getElem?_replicate, List.getElem?_eq_none (by omega)]
      by_cases hlt : q - ci.length < p + 1 - ci.length
      · rw [if_pos hlt]; rfl
      · rw [if_neg hlt]
  · rw [if_neg h]

theorem ensureLen_length (ci : List (List Nat)) (p : Nat) :
    p < (ensureLen ci p).length := by
  unfold ensureLen
  by_cases h : ci.length ≤ p
  · rw [if_pos h, List.length_append, List.length_replicate]; omega
  · rw [if_neg h]; omega

theorem walk_record_fold (index_lookup : ObjectId → Nat) (idx : Nat) :
    ∀ (ps : List ObjectId) (tw : List Nat) (ci : List (List Nat)),
    (ps.foldl (walk_record index_lookup idx) (tw, ci)).1 =
      (ps.map index_lookup).reverse ++ tw ∧
    (∀ q c : Nat,
      ((ps.foldl (walk_record index_lookup idx) (tw, ci)).2.getD q []).count c =
        (ci.getD q []).count c +
          (if c = idx then (ps.map index_lookup).count q else 0)) := by
  intro ps
  induction ps with
  | nil =>
    intro tw ci
    refine ⟨rfl, fun q c => ?_⟩
    simp
  | cons ph pt ih =>
    intro tw ci
    have hrec : walk_record index_lookup idx (tw, ci) ph =
        (index_lookup ph :: tw,
          (ensureLen ci (index_lookup ph)).set (index_lookup ph)
            ((ensureLen ci (index_lookup ph)).getD (index_lookup ph) []
              ++ [idx])) := rfl
    have hlen := ensureLen_length ci (index_lookup ph)
    have hget1 : ((ensureLen ci (index_lookup ph)).set (index_lookup ph)
        ((ensureLen ci (index_lookup ph)).getD (index_lookup ph) []
          ++ [idx])).getD (index_lookup ph) [] =
        ci.getD (index_lookup ph) [] ++ [idx] := by
      rw [getD_set_eq _ _ _ hlen, ensureLen_getD]
    have hget2 : ∀ q, q ≠ index_lookup ph →
        ((ensureLen ci (index_lookup ph)).set (index_lookup ph)
          ((ensureLen ci (index_lookup ph)).getD (index_lookup ph) []
            ++ [idx])).getD q [] = ci.getD q [] := by
      intro q hq
      rw [getD_set_ne _ _ _ _ (fun h => hq h.symm), ensureLen_getD]
    obtain ⟨ih1, ih2⟩ := ih (index_lookup ph :: tw)
      ((ensureLen ci (index_lookup ph)).set (index_lookup ph)
        ((ensureLen ci (index_lookup ph)).getD (index_lookup ph) []
          ++ [idx]))
    constructor
    · rw [List.foldl_cons, hrec, ih1]
      simp
    · intro q c
      rw [List.foldl_cons, hrec, ih2 q c]
      by_cases hq : q = index_lookup ph
      · subst hq
        rw [hget1, List.count_append, List.count_singleton]
        by_cases hc : c = idx
        · simp [hc, List.count_cons]
          omega
        · simp [hc, List.count_cons,
            (show ¬ idx = c from fun h => hc h.symm)]
      · rw [hget2 q hq]
        by_cases hc : c = idx
        · simp [hc, List.count_cons,
            (show ¬ index_lookup ph = q from fun h => hq h.symm)]
        · simp [hc]

theorem build_reverse_dag_loop_post (index_lookup : ObjectId → Nat)
    (storage : List CommitMetadata) (heads0 : List Nat)
    (hPar : ∀ i < storage.length,
      ∀ q ∈ parentsIdx index_lookup storage i, q < storage.length) :
    ∀ (fuel : Nat) (st : PhaseAState),
    InvA index_lookup storage heads0 st →
    phaseAPotential index_lookup storage st ≤ fuel →
    (build_reverse_dag_loop index_lookup storage fuel st).to_walk = [] ∧
    InvA index_lookup storage heads0
      (build_reverse_dag_loop index_lookup storage fuel st) := by
  intro fuel
  induction fuel with
  | zero =>
    intro st hinv hpot
    have hlen0 : st.to_walk.length = 0 := by
      unfold phaseAPotential at hpot; omega
    exact ⟨List.length_eq_zero.mp hlen0, hinv⟩
  | succ f ih =>
    rintro ⟨tw, wk, ci⟩ hinv hpot
    cases tw with
    | nil => exact ⟨rfl, hinv⟩
    | cons idx rest =>
      by_cases hw : idx ∈ wk
      · have hred : build_reverse_dag_loop index_lookup storage (f + 1)
            ⟨idx :: rest, wk, ci⟩ =
            build_reverse_dag_loop index_lookup storage f ⟨rest, wk, ci⟩ := by
          simp only [build_reverse_dag_loop, if_pos hw]
        rw [hred]
        apply ih
        · refine ⟨fun x hx => hinv.stackRange x (List.mem_cons_of_mem _ hx),
            hinv.walkedRange, hinv.walkedNodup,
            fun x hx => hinv.stackReach x (List.mem_cons_of_mem _ hx),
            hinv.walkedReach, ?_, ?_, hinv.counts⟩
          · intro i hi p hp
            rcases hinv.closure i hi p hp with h | h
            · exact Or.inl h
            · rcases List.mem_cons.mp h with rfl | h
              · exact Or.inl hw
              · exact Or.inr h
          · intro h hh
            rcases hinv.headsIn h hh with h2 | h2
            · exact Or.inl h2
            · rcases List.mem_cons.mp h2 with rfl | h2
              · exact Or.inl hw
              · exact Or.inr h2
        · unfold phaseAPotential at hpot ⊢
          dsimp only at hpot ⊢
          simp only [List.length_cons] at hpot
          omega
      · have hidxN : idx < storage.length :=
          hinv.stackRange idx (List.mem_cons_self _ _)
        obtain ⟨hf1, hf2⟩ := walk_record_fold index_lookup idx
          ((sval storage idx).parents) rest ci
        have hred : build_reverse_dag_loop index_lookup storage (f + 1)
            ⟨idx :: rest, wk, ci⟩ =
            build_reverse_dag_loop index_lookup storage f
              ⟨((sval storage idx).parents.foldl
                  (walk_record index_lookup idx) (rest, ci)).1,
                idx :: wk,
                ((sval storage idx).parents.foldl
                  (walk_record index_lookup idx) (rest, ci)).2⟩ := by
          simp only [build_reverse_dag_loop, if_neg hw]
        rw [hred]
        have hmap : ((sval storage idx).parents.map index_lookup) =
            parentsIdx index_lookup storage idx := rfl
        rw [hmap] at hf1 hf2
        have hmemStack : ∀ x ∈ ((sval storage idx).parents.foldl
            (walk_record index_lookup idx) (rest, ci)).1,
            x ∈ parentsIdx index_lookup storage idx ∨ x ∈ rest := by
          intro x hx
          rw [hf1] at hx
          rcases List.mem_append.mp hx with hx | hx
          · exact Or.inl (List.mem_reverse.mp hx)
          · exact Or.inr hx
        apply ih
        · refine ⟨?_, ?_, List.nodup_cons.mpr ⟨hw, hinv.walkedNodup⟩,
            ?_, ?_, ?_, ?_, ?_⟩
          · intro x hx
            rcases hmemStack x hx with hx | hx
            · exact hPar idx hidxN x hx
            · exact hinv.stackRange x (List.mem_cons_of_mem _ hx)
          · intro x hx
            rcases List.mem_cons.mp hx with rfl | hx
            · exact hidxN
            · exact hinv.walkedRange x hx
          · intro x hx
            rcases hmemStack x hx with hx | hx
            · obtain ⟨h0, hh0, htr⟩ :=
                hinv.stackReach idx (List.mem_cons_self _ _)
              exact ⟨h0, hh0, htr.tail hx⟩
            · exact hinv.stackReach x (List.mem_cons_of_mem _ hx)
          · intro x hx
            rcases List.mem_cons.mp hx with rfl | hx
            · exact hinv.stackReach x (List.mem_cons_self _ _)
            · exact hinv.walkedReach x hx
          · intro i hi p hp
            rcases List.mem_cons.mp hi with rfl | hi
            · refine Or.inr ?_
              rw [hf1]
              exact List.mem_append_left _ (List.mem_reverse.mpr hp)
            · rcases hinv.closure i hi p hp with h | h
              · exact Or.inl (List.mem_cons_of_mem _ h)
              · rcases List.mem_cons.mp h with rfl | h
                · exact Or.inl (List.mem_cons_self _ _)
                · refine Or.inr ?_
                  rw [hf1]
                  exact List.mem_append_right _ h
          · intro h hh
            rcases hinv.headsIn h hh with h2 | h2
            · exact Or.inl (List.mem_cons_of_mem _ h2)
            · rcases List.mem_cons.mp h2 with rfl | h2
              · exact Or.inl (List.mem_cons_self _ _)
              · refine Or.inr ?_
                rw [hf1]
                exact List.mem_append_right _ h2
          · intro q c
            rw [hf2 q c, hinv.counts q c]
            by_cases hc : c = idx
            · subst hc
              rw [if_pos rfl, if_neg hw, if_pos (List.mem_cons_self c wk)]
              omega
            · rw [if_neg hc]
              by_cases hcw : c ∈ wk
              · rw [if_pos hcw, if_pos (List.mem_cons_of_mem _ hcw)]
                omega
              · rw [if_neg hcw, if_neg (fun hh => by
                  rcases List.mem_cons.mp hh with h | h
                  · exact hc h
                  · exact hcw h)]
        · have hmemA : idx ∈ (Finset.range storage.length).filter
              (fun i => i ∉ wk) :=
            Finset.mem_filter.mpr ⟨Finset.mem_range.mpr hidxN, hw⟩
          have hsetEq : (Finset.range storage.length).filter
              (fun i => i ∉ idx :: wk) =
              ((Finset.range storage.length).filter
                (fun i => i ∉ wk)).erase idx := by
            ext a
            simp only [Finset.mem_filter, Finset.mem_erase,
              Finset.mem_range, List.mem_cons]
            tauto
          have hsum := Finset.sum_erase_add
            ((Finset.range storage.length).filter (fun i => i ∉ wk))
            (fun i => 1 + (parentsIdx index_lookup storage i).length) hmemA
          have hstlen : ((sval storage idx).parents.foldl
              (walk_record index_lookup idx) (rest, ci)).1.length =
              (parentsIdx index_lookup storage idx).length + rest.length := by
            rw [hf1, List.length_append, List.length_reverse]
          have hsum2 : (∑ x ∈ ((Finset.range storage.length).filter
              (fun i => i ∉ wk)).erase idx,
              (1 + (parentsIdx index_lookup storage x).length)) +
              (1 + (parentsIdx index_lookup storage idx).length) =
              ∑ x ∈ (Finset.range storage.length).filter (fun i => i ∉ wk),
                (1 + (parentsIdx index_lookup storage x).length) := hsum
          unfold phaseAPotential at hpot ⊢
          dsimp only at hpot ⊢
          simp only [List.length_cons] at hpot
          rw [hstlen, hsetEq]
          omega

/-! ### Phase B loop-level lemmas -/

theorem phaseBLoop_of_empty (sort_type : SortType)
    (storage : List CommitMetadata) (index_lookup : ObjectId → Nat)
    (fuel : Nat) (st : PhaseBState) (h : st.no_child_options = []) :
    phaseBLoop sort_type storage index_lookup fuel st = st := by
  cases fuel with
  | zero => rfl
  | succ f => simp [phaseBLoop, h]

theorem phaseBLoop_succ (sort_type : SortType)
    (storage : List CommitMetadata) (index_lookup : ObjectId → Nat) :
    ∀ (n : Nat) (st : PhaseBState),
    phaseBLoop sort_type storage index_lookup (n + 1) st =
      phaseBAdvance sort_type storage index_lookup
        (phaseBLoop sort_type storage index_lookup n st) := by
  intro n
  induction n with
  | zero =>
    intro st
    simp only [phaseBLoop, phaseBAdvance]
  | succ m ih =>
    intro st
    by_cases h : st.no_child_options.isEmpty
    · rw [phaseBLoop_of_empty _ _ _ _ _ (List.isEmpty_iff.mp h),
        phaseBLoop_of_empty _ _ _ _ _ (List.isEmpty_iff.mp h)]
      unfold phaseBAdvance
      rw [if_pos h]
    · have hl : ∀ f, phaseBLoop sort_type storage index_lookup (f + 1) st =
          phaseBLoop sort_type storage index_lookup f
            (phaseBStep sort_type storage index_lookup st) := by
        intro f
        simp only [phaseBLoop, if_neg h]
      rw [hl (m + 1), hl m, ih]

theorem phaseBLoop_inv (sort_type : SortType)
    (storage : List CommitMetadata) (index_lookup : ObjectId → Nat)
    (W : List Nat)
    (hClosed : ∀ i ∈ W, ∀ q ∈ parentsIdx index_lookup storage i, q ∈ W) :
    ∀ (fuel : Nat) (st : PhaseBState),
    InvB sort_type storage index_lookup W st →
    InvB sort_type storage index_lookup W
      (phaseBLoop sort_type storage index_lookup fuel st) := by
  intro fuel
  induction fuel with
  | zero => intro st hinv; exact hinv
  | succ f ih =>
    intro st hinv
    simp only [phaseBLoop]
    by_cases h : st.no_child_options.isEmpty
    · rw [if_pos h]; exact hinv
    · rw [if_neg h]
      have hne : st.no_child_options ≠ [] :=
        fun hh => h (List.isEmpty_iff.mpr hh)
      obtain ⟨hinv2, -, -, -⟩ := phaseBStep_preserves sort_type storage
        index_lookup W hClosed st _ (List.getLast?_eq_getLast _ hne) hinv
      exact ih _ hinv2

theorem phaseBLoop_empties (sort_type : SortType)
    (storage : List CommitMetadata) (index_lookup : ObjectId → Nat)
    (W : List Nat)
    (hClosed : ∀ i ∈ W, ∀ q ∈ parentsIdx index_lookup storage i, q ∈ W) :
    ∀ (fuel : Nat) (st : PhaseBState),
    InvB sort_type storage index_lookup W st →
    W.length - st.sorted_indices.length < fuel →
    (phaseBLoop sort_type storage index_lookup fuel st).no_child_options =
      [] := by
  intro fuel
  induction fuel with
  | zero => intro st _ h; omega
  | succ f ih =>
    intro st hinv hfuel
    simp only [phaseBLoop]
    by_cases h : st.no_child_options.isEmpty
    · rw [if_pos h]; exact List.isEmpty_iff.mp h
    · rw [if_neg h]
      have hne : st.no_child_options ≠ [] :=
        fun hh => h (List.isEmpty_iff.mpr hh)
      obtain ⟨hinv2, hem, -, -⟩ := phaseBStep_preserves sort_type storage
        index_lookup W hClosed st _ (List.getLast?_eq_getLast _ hne) hinv
      apply ih _ hinv2
      rw [hem, List.length_append]
      have hlast : st.no_child_options.getLast hne ∈ W :=
        hinv.eligW _ (List.getLast_mem hne)
      have hnodup : (st.no_child_options.getLast hne ::
          st.sorted_indices).Nodup :=
        List.nodup_cons.mpr ⟨hinv.disj _ (List.getLast_mem hne),
          hinv.emNodup⟩
      have hsubset : (st.no_child_options.getLast hne ::
          st.sorted_indices) ⊆ W := by
        intro a ha
        rcases List.mem_cons.mp ha with rfl | ha
        · exact hlast
        · exact hinv.emW a ha
      have hle := (List.subperm_of_subset hnodup hsubset).length_le
      simp only [List.length_cons, List.length_singleton] at hle ⊢
      omega

theorem exists_min_rank (rank : Nat → Nat) :
    ∀ (l : List Nat), l ≠ [] → ∃ u ∈ l, ∀ v ∈ l, rank u ≤ rank v := by
  intro l
  induction l with
  | nil => intro h; exact absurd rfl h
  | cons x t ih =>
    intro _
    by_cases ht : t = []
    · subst ht
      exact ⟨x, List.mem_singleton.mpr rfl, fun v hv => by
        rw [List.mem_singleton.mp hv]⟩
    · obtain ⟨u, hu, hmin⟩ := ih ht
      by_cases hc : rank x ≤ rank u
      · refine ⟨x, List.mem_cons_self _ _, fun v hv => ?_⟩
        rcases List.mem_cons.mp hv with rfl | hv
        · exact le_refl _
        · exact le_trans hc (hmin v hv)
      · refine ⟨u, List.mem_cons_of_mem _ hu, fun v hv => ?_⟩
        rcases List.mem_cons.mp hv with rfl | hv
        · omega
        · exact hmin v hv

theorem phaseB_final_complete (sort_type : SortType)
    (storage : List CommitMetadata) (index_lookup : ObjectId → Nat)
    (W : List Nat) (rank : Nat → Nat)
    (hrank : ∀ c ∈ W, ∀ p ∈ parentsIdx index_lookup storage c,
      rank c < rank p)
    (st : PhaseBState)
    (hinv : InvB sort_type storage index_lookup W st)
    (hempty : st.no_child_options = []) :
    ∀ u ∈ W, u ∈ st.sorted_indices := by
  by_contra hcon
  push_neg at hcon
  obtain ⟨u0, hu0W, hu0⟩ := hcon
  have hUne : W.filter (fun u => decide (u ∉ st.sorted_indices)) ≠ [] := by
    intro hnil
    have : u0 ∈ W.filter (fun u => decide (u ∉ st.sorted_indices)) :=
      List.mem_filter.mpr ⟨hu0W, by simpa using hu0⟩
    rw [hnil] at this
    exact absurd this (List.not_mem_nil u0)
  obtain ⟨u, hu, hmin⟩ := exists_min_rank rank _ hUne
  have huW : u ∈ W := (List.mem_filter.mp hu).1
  have huEm : u ∉ st.sorted_indices := by
    have := (List.mem_filter.mp hu).2
    simpa using this
  have hcz : ∀ c, (st.child_indices.getD u []).count c = 0 := by
    intro c
    rw [hinv.counts u c]
    by_cases hc : c ∈ W ∧ c ∉ st.sorted_indices
    · rw [if_pos hc]
      by_contra hnz
      have hmem : u ∈ parentsIdx index_lookup storage c :=
        List.count_pos_iff.mp (by omega)
      have h1 := hrank c hc.1 u hmem
      have h2 := hmin c (List.mem_filter.mpr ⟨hc.1, by simpa using hc.2⟩)
      omega
    · rw [if_neg hc]
  have hnil : st.child_indices.getD u [] = [] :=
    eq_nil_of_all_count_zero _ hcz
  have hmem := (hinv.eligIff u huW huEm).mp hnil
  rw [hempty] at hmem
  exact absurd hmem (List.not_mem_nil u)

theorem initial_InvB (sort_type : SortType) (storage : List CommitMetadata)
    (index_lookup : ObjectId → Nat) (W : List Nat)
    (ci : List (List Nat)) (hW : W.Nodup)
    (hcounts : ∀ p c : Nat, (ci.getD p []).count c =
      if c ∈ W then (parentsIdx index_lookup storage c).count p else 0) :
    InvB sort_type storage index_lookup W
      ⟨(get_childless_indices W ci).mergeSort (cmLe sort_type storage),
        ci, []⟩ := by
  have hperm := List.mergeSort_perm (get_childless_indices W ci)
    (cmLe sort_type storage)
  have hmemMS : ∀ x, x ∈ (get_childless_indices W ci).mergeSort
      (cmLe sort_type storage) ↔
      (x ∈ W ∧ (ci.getD x []).isEmpty = true) := by
    intro x
    rw [hperm.mem_iff]
    unfold get_childless_indices
    rw [List.mem_filter]
  refine ⟨List.nodup_nil, ?_, ?_, ?_, ?_, ?_, ?_, ?_, ?_, ?_⟩
  · exact hperm.nodup_iff.mpr (List.Nodup.filter _ hW)
  · intro x _ hmem
    exact absurd hmem (List.not_mem_nil x)
  · intro x hx
    exact ((hmemMS x).mp hx).1
  · intro x hx
    exact absurd hx (List.not_mem_nil x)
  · intro x hx
    exact absurd hx (List.not_mem_nil x)
  · intro p c
    rw [hcounts p c]
    by_cases hc : c ∈ W
    · rw [if_pos hc, if_pos ⟨hc, List.not_mem_nil c⟩]
    · rw [if_neg hc, if_neg (fun hh => hc hh.1)]
  · intro u huW _
    rw [hmemMS u]
    constructor
    · intro h
      exact ⟨huW, by rw [h]; rfl⟩
    · intro h
      exact List.isEmpty_iff.mp h.2
  · have hs := List.sorted_mergeSort (cmLe_trans sort_type storage)
      (cmLe_total sort_type storage) (get_childless_indices W ci)
    exact hs.imp (fun h => (cmLe_true_iff _ _ _ _).mp h)
  · intro c _ p _ l1 l2 heq
    have := List.append_eq_nil.mp heq.symm
    exact absurd this.2 (List.cons_ne_nil p l2)

theorem build_sorted_master (sort_type : SortType)
    (storage : List CommitMetadata) (index_lookup : ObjectId → Nat)
    (V : List Nat) (ci : List (List Nat)) (hW : V.Nodup)
    (hClosed : ∀ i ∈ V, ∀ q ∈ parentsIdx index_lookup storage i, q ∈ V)
    (hcounts : ∀ p c : Nat, (ci.getD p []).count c =
      if c ∈ V then (parentsIdx index_lookup storage c).count p else 0)
    (rank : Nat → Nat)
    (hrank : ∀ c ∈ V, ∀ p ∈ parentsIdx index_lookup storage c,
      rank c < rank p) :
    (build_sorted_metadata_indicies sort_type V ci index_lookup
      storage).Nodup ∧
    (∀ x, x ∈ build_sorted_metadata_indicies sort_type V ci index_lookup
      storage ↔ x ∈ V) ∧
    (∀ c ∈ V, ∀ p ∈ parentsIdx index_lookup storage c, ∀ l1 l2,
      build_sorted_metadata_indicies sort_type V ci index_lookup storage =
        l1 ++ p :: l2 → c ∈ l1) := by
  have hinv0 := initial_InvB sort_type storage index_lookup V ci hW hcounts
  have hinvF := phaseBLoop_inv sort_type storage index_lookup V hClosed
    (V.length + 1) _ hinv0
  have hemptyF := phaseBLoop_empties sort_type storage index_lookup V
    hClosed (V.length + 1) _ hinv0 (by simp)
  have hout : build_sorted_metadata_indicies sort_type V ci index_lookup
      storage = (phaseBLoop sort_type storage index_lookup (V.length + 1)
        ⟨(get_childless_indices V ci).mergeSort (cmLe sort_type storage),
          ci, []⟩).sorted_indices := rfl
  rw [hout]
  refine ⟨hinvF.emNodup, ?_, ?_⟩
  · intro x
    constructor
    · intro hx
      exact hinvF.emW x hx
    · intro hx
      exact phaseB_final_complete sort_type storage index_lookup V rank
        hrank _ hinvF hemptyF x hx
  · intro c hc p hp l1 l2 heq
    exact hinvF.topo c hc p hp l1 l2 heq

theorem sum_parents_lengths (index_lookup : ObjectId → Nat) :
    ∀ (storage : List CommitMetadata),
    (∑ i ∈ Finset.range storage.length,
      (parentsIdx index_lookup storage i).length) =
      (storage.map (fun m => m.parents.length)).sum := by
  intro storage
  induction storage with
  | nil => simp
  | cons m t ih =>
    rw [List.length_cons, Finset.sum_range_succ']
    have h1 : ∀ k ∈ Finset.range t.length,
        (parentsIdx index_lookup (m :: t) (k + 1)).length =
          (parentsIdx index_lookup t k).length := by
      intro k _
      unfold parentsIdx sval
      rw [List.getD_cons_succ]
    rw [Finset.sum_congr rfl h1, ih]
    unfold parentsIdx sval
    simp [Nat.add_comm]

theorem build_reverse_dag_post (index_lookup : ObjectId → Nat)
    (storage : List CommitMetadata) (heads : List ObjectId)
    (hPar : ∀ i < storage.length,
      ∀ q ∈ parentsIdx index_lookup storage i, q < storage.length)
    (hHeads : ∀ h ∈ heads, index_lookup h < storage.length) :
    (build_reverse_dag index_lookup storage heads).to_walk = [] ∧
    (build_reverse_dag index_lookup storage heads).walked.Nodup ∧
    (∀ x ∈ (build_reverse_dag index_lookup storage heads).walked,
      x < storage.length) ∧
    (∀ i ∈ (build_reverse_dag index_lookup storage heads).walked,
      ∀ p ∈ parentsIdx index_lookup storage i,
        p ∈ (build_reverse_dag index_lookup storage heads).walked) ∧
    (∀ x, x ∈ (build_reverse_dag index_lookup storage heads).walked ↔
      ReachableFrom index_lookup storage (heads.map index_lookup) x) ∧
    (∀ p c : Nat,
      ((build_reverse_dag index_lookup storage heads).child_indices.getD
        p []).count c =
      if c ∈ (build_reverse_dag index_lookup storage heads).walked
      then (parentsIdx index_lookup storage c).count p else 0) := by
  have hinv0 : InvA index_lookup storage (heads.map index_lookup)
      ⟨(heads.map index_lookup).reverse, [], []⟩ := by
    refine ⟨?_, ?_, List.nodup_nil, ?_, ?_, ?_, ?_, ?_⟩
    · intro x hx
      obtain ⟨h, hh, rfl⟩ :=
        List.mem_map.mp (List.mem_reverse.mp hx)
      exact hHeads h hh
    · intro x hx; exact absurd hx (List.not_mem_nil x)
    · intro x hx
      exact ⟨x, List.mem_reverse.mp hx, Relation.ReflTransGen.refl⟩
    · intro x hx; exact absurd hx (List.not_mem_nil x)
    · intro i hi; exact absurd hi (List.not_mem_nil i)
    · intro h hh; exact Or.inr (List.mem_reverse.mpr hh)
    · intro p c
      rw [if_neg (List.not_mem_nil c)]
      simp
  have hpot : phaseAPotential index_lookup storage
      ⟨(heads.map index_lookup).reverse, [], []⟩ ≤
      heads.length + storage.length +
        (storage.map (fun m => m.parents.length)).sum + 1 := by
    unfold phaseAPotential
    dsimp only
    rw [List.length_reverse, List.length_map]
    have hfil : (Finset.range storage.length).filter
        (fun i => i ∉ ([] : List Nat)) = Finset.range storage.length := by
      apply Finset.filter_true_of_mem
      intro x _
      exact List.not_mem_nil x
    rw [hfil, Finset.sum_add_distrib, Finset.sum_const,
      Finset.card_range, smul_eq_mul, mul_one,
      sum_parents_lengths index_lookup storage]
    omega
  obtain ⟨hstack, hinvF⟩ := build_reverse_dag_loop_post index_lookup
    storage (heads.map index_lookup) hPar
    (heads.length + storage.length +
      (storage.map (fun m => m.parents.length)).sum + 1)
    ⟨(heads.map index_lookup).reverse, [], []⟩ hinv0 hpot
  have hdag : build_reverse_dag index_lookup storage heads =
      build_reverse_dag_loop index_lookup storage
        (heads.length + storage.length +
          (storage.map (fun m => m.parents.length)).sum + 1)
        ⟨(heads.map index_lookup).reverse, [], []⟩ := rfl
  rw [hdag]
  refine ⟨hstack, hinvF.walkedNodup, hinvF.walkedRange, ?_, ?_,
    hinvF.counts⟩
  · intro i hi p hp
    rcases hinvF.closure i hi p hp with h | h
    · exact h
    · rw [hstack] at h
      exact absurd h (List.not_mem_nil p)
  · intro x
    constructor
    · intro hx
      exact hinvF.walkedReach x hx
    · rintro ⟨h0, hh0, htr⟩
      induction htr with
      | refl =>
        rcases hinvF.headsIn h0 hh0 with h | h
        · exact h
        · rw [hstack] at h
          exact absurd h (List.not_mem_nil h0)
      | tail hab hbc ih =>
        rename_i b c
        rcases hinvF.closure b ih c hbc with h | h
        · exact h
        · rw [hstack] at h
          exact absurd h (List.not_mem_nil c)

/-! ### Claims C1 and C3 -/

theorem resolvable_hPar (index_lookup : ObjectId → Nat)
    (storage : List CommitMetadata) (heads : List ObjectId)
    (hRes : ResolvableStore index_lookup storage heads) :
    ∀ i < storage.length, ∀ q ∈ parentsIdx index_lookup storage i,
      q < storage.length := by
  intro i hi q hq
  obtain ⟨r, hr, rfl⟩ := List.mem_map.mp hq
  exact (hRes.parentsOk i hi r hr).1

theorem walked_resolved (index_lookup : ObjectId → Nat)
    (storage : List CommitMetadata) (heads : List ObjectId)
    (hRes : ResolvableStore index_lookup storage heads) :
    ∀ x ∈ (build_reverse_dag index_lookup storage heads).walked,
      index_lookup ((sval storage x).id) = x := by
  obtain ⟨-, -, hrange, -, hreach, -⟩ := build_reverse_dag_post
    index_lookup storage heads (resolvable_hPar _ _ _ hRes)
    (fun h hh => (hRes.headsOk h hh).1)
  intro x hx
  obtain ⟨h0, hh0, htr⟩ := (hreach x).mp hx
  clear hx
  induction htr with
  | refl =>
    obtain ⟨h, hh, rfl⟩ := List.mem_map.mp hh0
    rw [(hRes.headsOk h hh).2]
  | tail hab hstep ih =>
    rename_i b c
    have hbW : b ∈ (build_reverse_dag index_lookup storage heads).walked :=
      (hreach b).mpr ⟨h0, hh0, hab⟩
    have hbN : b < storage.length := hrange b hbW
    obtain ⟨q, hq, rfl⟩ := List.mem_map.mp hstep
    rw [(hRes.parentsOk b hbN q hq).2]

theorem metadata_iter_master (sort_type : SortType)
    (storage : List CommitMetadata) (index_lookup : ObjectId → Nat)
    (heads : List ObjectId) (walk_order : List Nat) (rank : Nat → Nat)
    (hRes : ResolvableStore index_lookup storage heads)
    (hperm : walk_order.Perm
      (build_reverse_dag index_lookup storage heads).walked)
    (hrank : ∀ c ∈ walk_order, ∀ p ∈ parentsIdx index_lookup storage c,
      rank c < rank p) :
    (build_sorted_metadata_indicies sort_type walk_order
      (build_reverse_dag index_lookup storage heads).child_indices
      index_lookup storage).Nodup ∧
    (∀ x, x ∈ build_sorted_metadata_indicies sort_type walk_order
        (build_reverse_dag index_lookup storage heads).child_indices
        index_lookup storage ↔
      x ∈ (build_reverse_dag index_lookup storage heads).walked) ∧
    (∀ c ∈ (build_reverse_dag index_lookup storage heads).walked,
      ∀ p ∈ parentsIdx index_lookup storage c, ∀ l1 l2,
        build_sorted_metadata_indicies sort_type walk_order
          (build_reverse_dag index_lookup storage heads).child_indices
          index_lookup storage = l1 ++ p :: l2 → c ∈ l1) := by
  obtain ⟨-, hnd, -, hclosed, -, hcounts⟩ := build_reverse_dag_post
    index_lookup storage heads (resolvable_hPar _ _ _ hRes)
    (fun h hh => (hRes.headsOk h hh).1)
  have hW : walk_order.Nodup := hperm.nodup_iff.mpr hnd
  have hClosed2 : ∀ i ∈ walk_order,
      ∀ q ∈ parentsIdx index_lookup storage i, q ∈ walk_order := by
    intro i hi q hq
    exact hperm.mem_iff.mpr (hclosed i (hperm.mem_iff.mp hi) q hq)
  have hcounts2 : ∀ p c : Nat,
      (((build_reverse_dag index_lookup storage heads).child_indices).getD
        p []).count c =
      if c ∈ walk_order
      then (parentsIdx index_lookup storage c).count p else 0 := by
    intro p c
    rw [hcounts p c]
    by_cases hc : c ∈ walk_order
    · rw [if_pos hc, if_pos (hperm.mem_iff.mp hc)]
    · rw [if_neg hc, if_neg (fun hh => hc (hperm.mem_iff.mpr hh))]
  obtain ⟨mnd, mmem, mtopo⟩ := build_sorted_master sort_type storage
    index_lookup walk_order _ hW hClosed2 hcounts2 rank hrank
  refine ⟨mnd, fun x => (mmem x).trans hperm.mem_iff, ?_⟩
  intro c hc p hp l1 l2 heq
  exact mtopo c (hperm.mem_iff.mpr hc) p hp l1 l2 heq

/-- C3.  For every head set whose reachable ancestry is fully resolvable
(`ResolvableStore`; acyclicity witnessed by a rank function), and every
iteration order of the walked hash set, `metadata_iter` emits exactly the
commits reachable from the heads by following parent pointers: Phase A's
visited set records precisely the reachable slot indices, Phase B emits
every walked index exactly once (no duplicates, nothing omitted), and the
emitted metadata carry pairwise-distinct ids. -/
theorem C3_metadata_iter_exactly_reachable (sort_type : SortType)
    (storage : List CommitMetadata) (index_lookup : ObjectId → Nat)
    (heads : List ObjectId) (walk_order : List Nat) (rank : Nat → Nat)
    (hRes : ResolvableStore index_lookup storage heads)
    (hperm : walk_order.Perm
      (build_reverse_dag index_lookup storage heads).walked)
    (hrank : ∀ c ∈ walk_order, ∀ p ∈ parentsIdx index_lookup storage c,
      rank c < rank p) :
    (∀ x, x ∈ (build_reverse_dag index_lookup storage heads).walked ↔
      ReachableFrom index_lookup storage (heads.map index_lookup) x) ∧
    (∀ x, x ∈ build_sorted_metadata_indicies sort_type walk_order
        (build_reverse_dag index_lookup storage heads).child_indices
        index_lookup storage ↔
      x ∈ (build_reverse_dag index_lookup storage heads).walked) ∧
    (build_sorted_metadata_indicies sort_type walk_order
      (build_reverse_dag index_lookup storage heads).child_indices
      index_lookup storage).Nodup ∧
    ((metadata_iter sort_type storage index_lookup heads
      walk_order).map (fun m => m.id)).Nodup := by
  obtain ⟨-, -, -, -, hreach, -⟩ := build_reverse_dag_post
    index_lookup storage heads (resolvable_hPar _ _ _ hRes)
    (fun h hh => (hRes.headsOk h hh).1)
  obtain ⟨mnd, mmem, -⟩ := metadata_iter_master sort_type storage
    index_lookup heads walk_order rank hRes hperm hrank
  have hresolved := walked_resolved index_lookup storage heads hRes
  refine ⟨hreach, mmem, mnd, ?_⟩
  have hmi : metadata_iter sort_type storage index_lookup heads
      walk_order = (build_sorted_metadata_indicies sort_type walk_order
        (build_reverse_dag index_lookup storage heads).child_indices
        index_lookup storage).map (sval storage) := rfl
  rw [hmi, List.map_map]
  apply List.Nodup.map_on _ mnd
  intro x hx y hy hid
  have hx2 := (mmem x).mp hx
  have hy2 := (mmem y).mp hy
  have h1 := hresolved x hx2
  have h2 := hresolved y hy2
  simp only [Function.comp] at hid
  rw [← h1, ← h2, hid]

/-- C1.  Topological validity of `metadata_iter`: under full
resolvability (and a rank function witnessing acyclicity), for every
iteration order of the walked hash set, every parent of an emitted commit
appears strictly later in the emitted sequence. -/
theorem C1_metadata_iter_topological (sort_type : SortType)
    (storage : List CommitMetadata) (index_lookup : ObjectId → Nat)
    (heads : List ObjectId) (walk_order : List Nat) (rank : Nat → Nat)
    (hRes : ResolvableStore index_lookup storage heads)
    (hperm : walk_order.Perm
      (build_reverse_dag index_lookup storage heads).walked)
    (hrank : ∀ c ∈ walk_order, ∀ p ∈ parentsIdx index_lookup storage c,
      rank c < rank p) :
    ∀ (i : Nat) (hi : i < (metadata_iter sort_type storage index_lookup
        heads walk_order).length),
      ∀ pid ∈ ((metadata_iter sort_type storage index_lookup heads
        walk_order).get ⟨i, hi⟩).parents,
      ∃ (j : Nat) (hj : j < (metadata_iter sort_type storage index_lookup
        heads walk_order).length), i < j ∧
        ((metadata_iter sort_type storage index_lookup heads
          walk_order).get ⟨j, hj⟩).id = pid := by
  obtain ⟨-, -, hrange, hclosed, -, -⟩ := build_reverse_dag_post
    index_lookup storage heads (resolvable_hPar _ _ _ hRes)
    (fun h hh => (hRes.headsOk h hh).1)
  obtain ⟨mnd, mmem, mtopo⟩ := metadata_iter_master sort_type storage
    index_lookup heads walk_order rank hRes hperm hrank
  have hmi : metadata_iter sort_type storage index_lookup heads
      walk_order = (build_sorted_metadata_indicies sort_type walk_order
        (build_reverse_dag index_lookup storage heads).child_indices
        index_lookup storage).map (sval storage) := rfl
  set out := build_sorted_metadata_indicies sort_type walk_order
    (build_reverse_dag index_lookup storage heads).child_indices
    index_lookup storage with hout
  intro i hi pid hpid
  have hlen : (metadata_iter sort_type storage index_lookup heads
      walk_order).length = out.length := by
    rw [hmi, List.length_map]
  have hil : i < out.length := by omega
  have hgeti : (metadata_iter sort_type storage index_lookup heads
      walk_order).get ⟨i, hi⟩ = sval storage (out.get ⟨i, hil⟩) := by
    rw [List.get_eq_getElem, List.get_eq_getElem,
      List.getElem_of_eq hmi hi]
    exact List.getElem_map _
  rw [hgeti] at hpid
  have hcW : out.get ⟨i, hil⟩ ∈
      (build_reverse_dag index_lookup storage heads).walked :=
    (mmem _).mp (List.get_mem out i hil)
  have hcN : out.get ⟨i, hil⟩ < storage.length := hrange _ hcW
  have hpmem : index_lookup pid ∈ parentsIdx index_lookup storage
      (out.get ⟨i, hil⟩) := List.mem_map.mpr ⟨pid, hpid, rfl⟩
  have hpW : index_lookup pid ∈
      (build_reverse_dag index_lookup storage heads).walked :=
    hclosed _ hcW _ hpmem
  have hpout : index_lookup pid ∈ out := (mmem _).mpr hpW
  obtain ⟨⟨j, hj⟩, hgetj⟩ := List.mem_iff_get.mp hpout
  have hdecomp : out = out.take j ++ index_lookup pid ::
      out.drop (j + 1) := by
    conv_lhs => rw [← List.take_append_drop j out]
    rw [List.drop_eq_getElem_cons hj]
    rw [List.get_eq_getElem] at hgetj
    rw [hgetj]
  have hcin : out.get ⟨i, hil⟩ ∈ out.take j :=
    mtopo _ hcW _ hpmem (out.take j) (out.drop (j + 1)) hdecomp
  obtain ⟨⟨i2, hi2⟩, hgeti2⟩ := List.mem_iff_get.mp hcin
  have hi2t : i2 < j := by
    have := List.length_take_le j out
    rw [List.length_take] at hi2
    omega
  have hi2l : i2 < out.length := by omega
  have hgeti2' : out.get ⟨i2, hi2l⟩ = out.get ⟨i, hil⟩ := by
    rw [← hgeti2, List.get_take out hi2l hi2t]
  have hij : i2 = i := by
    rw [List.get_eq_getElem, List.get_eq_getElem] at hgeti2'
    exact mnd.getElem_inj_iff.mp hgeti2'
  have hjl : j < (metadata_iter sort_type storage index_lookup heads
      walk_order).length := by omega
  refine ⟨j, hjl, by omega, ?_⟩
  have hgetj2 : (metadata_iter sort_type storage index_lookup heads
      walk_order).get ⟨j, hjl⟩ = sval storage (out.get ⟨j, hj⟩) := by
    rw [List.get_eq_getElem, List.get_eq_getElem,
      List.getElem_of_eq hmi hjl]
    exact List.getElem_map _
  rw [hgetj2, List.get_eq_getElem] at *
  rw [hgetj]
  exact (hRes.parentsOk _ hcN pid hpid).2

/-! ### Claim C2: timestamp ordering among simultaneously eligible -/

theorem build_sorted_eq_loop (sort_type : SortType)
    (storage : List CommitMetadata) (index_lookup : ObjectId → Nat)
    (V : List Nat) (ci : List (List Nat)) :
    build_sorted_metadata_indicies sort_type V ci index_lookup storage =
      (phaseBLoop sort_type storage index_lookup (V.length + 1)
        (phaseBStart sort_type storage V ci)).sorted_indices := rfl

/-- C2.  During Phase B, among simultaneously eligible commits, emission
is in non-increasing order of the configured timestamp: if `b` is in the
eligible list at step `n`, and `a` is popped (emitted) at step `m ≥ n`
with `b` not popped in between, then `b`'s configured timestamp is at
most `a`'s.  (The eligible list is kept sorted ascending — see
`InvB.sortedE` via `phaseBLoop_inv` — and the loop always pops its last
element.) -/
theorem C2_eligible_timestamp_order (sort_type : SortType)
    (storage : List CommitMetadata) (index_lookup : ObjectId → Nat)
    (V : List Nat) (ci : List (List Nat)) (hW : V.Nodup)
    (hClosed : ∀ i ∈ V, ∀ q ∈ parentsIdx index_lookup storage i, q ∈ V)
    (hcounts : ∀ p c : Nat, (ci.getD p []).count c =
      if c ∈ V then (parentsIdx index_lookup storage c).count p else 0)
    (n m a b : Nat) (hnm : n ≤ m)
    (hb : b ∈ (phaseBLoop sort_type storage index_lookup n
      (phaseBStart sort_type storage V ci)).no_child_options)
    (hpop : (phaseBLoop sort_type storage index_lookup m
      (phaseBStart sort_type storage V ci)).no_child_options.getLast? =
      some a)
    (hnotb : ∀ k, n ≤ k → k < m →
      (phaseBLoop sort_type storage index_lookup k
        (phaseBStart sort_type storage V ci)).no_child_options.getLast? ≠
        some b) :
    keyLe sort_type storage b a := by
  have hinv0 : InvB sort_type storage index_lookup V
      (phaseBStart sort_type storage V ci) :=
    initial_InvB sort_type storage index_lookup V ci hW hcounts
  have hpers : ∀ d, n + d ≤ m →
      b ∈ (phaseBLoop sort_type storage index_lookup (n + d)
        (phaseBStart sort_type storage V ci)).no_child_options := by
    intro d
    induction d with
    | zero => intro _; exact hb
    | succ e ih =>
      intro hle
      have hbe := ih (by omega)
      have heq : n + (e + 1) = (n + e) + 1 := rfl
      rw [heq, phaseBLoop_succ]
      unfold phaseBAdvance
      by_cases hemp : (phaseBLoop sort_type storage index_lookup (n + e)
          (phaseBStart sort_type storage V ci)).no_child_options.isEmpty
      · rw [if_pos hemp]; exact hbe
      · rw [if_neg hemp]
        have hne : (phaseBLoop sort_type storage index_lookup (n + e)
            (phaseBStart sort_type storage V ci)).no_child_options ≠ [] :=
          fun hh => hemp (List.isEmpty_iff.mpr hh)
        have hinvk := phaseBLoop_inv sort_type storage index_lookup V
          hClosed (n + e) _ hinv0
        obtain ⟨-, -, hpers1, -⟩ := phaseBStep_preserves sort_type storage
          index_lookup V hClosed _ _ (List.getLast?_eq_getLast _ hne) hinvk
        apply hpers1 b hbe
        intro hbeq
        exact hnotb (n + e) (by omega) (by omega)
          (by rw [List.getLast?_eq_getLast _ hne, hbeq])
  have hbm : b ∈ (phaseBLoop sort_type storage index_lookup m
      (phaseBStart sort_type storage V ci)).no_child_options := by
    have h := hpers (m - n) (by omega)
    rw [Nat.add_sub_cancel' hnm] at h
    exact h
  have hinvm := phaseBLoop_inv sort_type storage index_lookup V hClosed m
    _ hinv0
  obtain ⟨-, -, -, hmax⟩ := phaseBStep_preserves sort_type storage
    index_lookup V hClosed _ a hpop hinvm
  exact hmax b hbm

/-! ### Claim C8: determinism -/

/-- C8 counterexample.  Phase B's output depends on the iteration order of
the walked `HashSet`: with two childless commits carrying equal configured
timestamps, two iteration orders of the same walked set produce different
emission sequences (the initial stable sort leaves ties in set-iteration
order), so `metadata_iter` is not a function of the store state, heads and
sort order alone. -/
theorem C8_hash_order_counterexample :
    ([0, 1] : List Nat).Perm [1, 0] ∧
    build_sorted_metadata_indicies SortType.CommitterTimestamp [0, 1] []
      exLookup exStorageTies ≠
      build_sorted_metadata_indicies SortType.CommitterTimestamp [1, 0] []
        exLookup exStorageTies := by
  constructor
  · decide
  · have h1 : build_sorted_metadata_indicies SortType.CommitterTimestamp
        [0, 1] [] exLookup exStorageTies = [1, 0] := by
      rw [build_sorted_eq_loop]
      unfold phaseBStart
      rw [show get_childless_indices [0, 1] ([] : List (List Nat)) =
        [0, 1] from rfl, List.mergeSort_of_sorted (by decide)]
      decide
    have h2 : build_sorted_metadata_indicies SortType.CommitterTimestamp
        [1, 0] [] exLookup exStorageTies = [0, 1] := by
      rw [build_sorted_eq_loop]
      unfold phaseBStart
      rw [show get_childless_indices [1, 0] ([] : List (List Nat)) =
        [1, 0] from rfl, List.mergeSort_of_sorted (by decide)]
      decide
    rw [h1, h2]
    decide

/-- C8 (amended).  The emitted sequence is a function of the walked set's
iteration order; whenever the walked commits carry pairwise-distinct
configured timestamps, it does not depend on that iteration order: any two
enumerations of the same walked set yield identical output. -/
theorem C8_deterministic_given_distinct_keys (sort_type : SortType)
    (storage : List CommitMetadata) (index_lookup : ObjectId → Nat)
    (ci : List (List Nat)) (w1 w2 : List Nat) (hperm : w1.Perm w2)
    (hkeys : w1.Pairwise (fun a b =>
      sortKey sort_type (sval storage a) ≠
        sortKey sort_type (sval storage b))) :
    build_sorted_metadata_indicies sort_type w1 ci index_lookup storage =
      build_sorted_metadata_indicies sort_type w2 ci index_lookup
        storage := by
  have hlen : w1.length = w2.length := hperm.length_eq
  have hfilter : (get_childless_indices w1 ci).Perm
      (get_childless_indices w2 ci) := hperm.filter _
  have hpermL : ((get_childless_indices w1 ci).mergeSort
      (cmLe sort_type storage)).Perm
      ((get_childless_indices w2 ci).mergeSort (cmLe sort_type storage)) :=
    ((List.mergeSort_perm _ _).trans hfilter).trans
      (List.mergeSort_perm _ _).symm
  have hsym : ∀ {x y : Nat},
      sortKey sort_type (sval storage x) ≠ sortKey sort_type (sval storage y) →
      sortKey sort_type (sval storage y) ≠ sortKey sort_type (sval storage x) :=
    fun h => h.symm
  have hne1 : ((get_childless_indices w1 ci).mergeSort
      (cmLe sort_type storage)).Pairwise (fun a b =>
      sortKey sort_type (sval storage a) ≠
        sortKey sort_type (sval storage b)) :=
    ((List.mergeSort_perm _ _).pairwise_iff hsym).mpr
      (hkeys.filter _)
  have hne2 : ((get_childless_indices w2 ci).mergeSort
      (cmLe sort_type storage)).Pairwise (fun a b =>
      sortKey sort_type (sval storage a) ≠
        sortKey sort_type (sval storage b)) :=
    (hpermL.pairwise_iff hsym).mp hne1
  have hsorted : ∀ (w : List Nat),
      ((get_childless_indices w ci).mergeSort
        (cmLe sort_type storage)).Pairwise (keyLe sort_type storage) :=
    fun w => (List.sorted_mergeSort (cmLe_trans sort_type storage)
      (cmLe_total sort_type storage) (get_childless_indices w ci)).imp
      (fun h => (cmLe_true_iff _ _ _ _).mp h)
  have hlt1 : ((get_childless_indices w1 ci).mergeSort
      (cmLe sort_type storage)).Pairwise (fun a b =>
      sortKey sort_type (sval storage a) <
        sortKey sort_type (sval storage b) ∨ a = b) :=
    ((hsorted w1).and hne1).imp (fun h => Or.inl (lt_of_le_of_ne h.1 h.2))
  have hlt2 : ((get_childless_indices w2 ci).mergeSort
      (cmLe sort_type storage)).Pairwise (fun a b =>
      sortKey sort_type (sval storage a) <
        sortKey sort_type (sval storage b) ∨ a = b) :=
    ((hsorted w2).and hne2).imp (fun h => Or.inl (lt_of_le_of_ne h.1 h.2))
  haveI : IsAntisymm Nat (fun a b =>
      sortKey sort_type (sval storage a) <
        sortKey sort_type (sval storage b) ∨ a = b) := by
    constructor
    intro a b h1 h2
    rcases h1 with h1 | h1
    · rcases h2 with h2 | h2
      · omega
      · exact h2.symm
    · exact h1
  have heq : (get_childless_indices w1 ci).mergeSort
      (cmLe sort_type storage) =
      (get_childless_indices w2 ci).mergeSort (cmLe sort_type storage) :=
    List.eq_of_perm_of_sorted hpermL hlt1 hlt2
  rw [build_sorted_eq_loop, build_sorted_eq_loop]
  unfold phaseBStart
  rw [heq, hlen]

/-- Witness for C8's amended statement at a concrete input: with distinct
timestamps, the two iteration orders of the same two-commit walked set
produce identical sequences. -/
theorem C8_deterministic_given_distinct_keys_witness :
    build_sorted_metadata_indicies SortType.CommitterTimestamp [0, 1] []
      exLookup exStorageDistinct =
      build_sorted_metadata_indicies SortType.CommitterTimestamp [1, 0] []
        exLookup exStorageDistinct :=
  C8_deterministic_given_distinct_keys SortType.CommitterTimestamp
    exStorageDistinct exLookup [] [0, 1] [1, 0] (by decide) (by decide)

/-! ### Witness evaluations on the concrete stores -/

theorem phaseBStart_ties_eval :
    phaseBStart SortType.CommitterTimestamp exStorageTies [0, 1] [] =
      ⟨[0, 1], [], []⟩ := by
  unfold phaseBStart
  rw [show get_childless_indices [0, 1] ([] : List (List Nat)) = [0, 1]
    from rfl, List.mergeSort_of_sorted (by decide)]

theorem ties_counts : ∀ p c : Nat,
    ((([] : List (List Nat))).getD p []).count c =
      if c ∈ ([0, 1] : List Nat)
      then (parentsIdx exLookup exStorageTies c).count p else 0 := by
  intro p c
  by_cases hc : c ∈ ([0, 1] : List Nat)
  · rw [if_pos hc]
    rcases List.mem_cons.mp hc with rfl | hc2
    · simp [parentsIdx, sval, exStorageTies]
    · rw [List.mem_singleton.mp hc2]
      simp [parentsIdx, sval, exStorageTies]
  · rw [if_neg hc]
    simp

theorem metadata_iter_chain_eval :
    metadata_iter SortType.CommitterTimestamp exStorageChain exLookup
      [exOid 0] [1, 2, 0] =
      [⟨exOid 0, [exOid 1, exOid 2], 10, 10⟩,
       ⟨exOid 1, [exOid 2], 5, 5⟩,
       ⟨exOid 2, [], 3, 3⟩] := by
  have hmi : metadata_iter SortType.CommitterTimestamp exStorageChain
      exLookup [exOid 0] [1, 2, 0] =
      (build_sorted_metadata_indicies SortType.CommitterTimestamp
        [1, 2, 0]
        (build_reverse_dag exLookup exStorageChain [exOid 0]).child_indices
        exLookup exStorageChain).map (sval exStorageChain) := rfl
  have hci : (build_reverse_dag exLookup exStorageChain
      [exOid 0]).child_indices = [[], [0], [0, 1]] := by decide
  rw [hmi, build_sorted_eq_loop]
  unfold phaseBStart
  rw [hci]
  rw [show get_childless_indices [1, 2, 0] [[], [0], [0, 1]] = [0]
    from rfl, List.mergeSort_singleton]
  decide

theorem loop0_ties_eval :
    phaseBLoop SortType.CommitterTimestamp exStorageTies exLookup 0
      (phaseBStart SortType.CommitterTimestamp exStorageTies [0, 1] []) =
      ⟨[0, 1], [], []⟩ := phaseBStart_ties_eval

/-- Witness for C2 at a concrete input: with two simultaneously eligible
commits of equal timestamps, the one popped first has timestamp at least
the other's. -/
theorem C2_eligible_timestamp_order_witness :
    keyLe SortType.CommitterTimestamp exStorageTies 0 1 :=
  C2_eligible_timestamp_order SortType.CommitterTimestamp exStorageTies
    exLookup [0, 1] [] (by decide) (by decide) ties_counts 0 0 1 0
    (le_refl 0)
    (by rw [loop0_ties_eval]; decide)
    (by rw [loop0_ties_eval]; decide)
    (fun k _ hk => absurd hk (by omega))

/-- Witness for C1 at a concrete input: in the three-commit merge store,
the first parent of the head (emitted at position 0) is emitted strictly
later. -/
theorem C1_metadata_iter_topological_witness :
    ∃ (j : Nat) (hj : j < (metadata_iter SortType.CommitterTimestamp
      exStorageChain exLookup [exOid 0] [1, 2, 0]).length), 0 < j ∧
      ((metadata_iter SortType.CommitterTimestamp exStorageChain exLookup
        [exOid 0] [1, 2, 0]).get ⟨j, hj⟩).id = exOid 1 :=
  C1_metadata_iter_topological SortType.CommitterTimestamp exStorageChain
    exLookup [exOid 0] [1, 2, 0] (fun i => i)
    ⟨by decide, by decide⟩ (by decide) (by decide) 0
    (by rw [metadata_iter_chain_eval]; decide) (exOid 1)
    (by rw [List.get_eq_getElem,
      List.getElem_of_eq metadata_iter_chain_eval]; decide)

/-- Witness for C3 at a concrete input: the emitted index list of the
three-commit merge store has no duplicates, and so do the emitted ids. -/
theorem C3_metadata_iter_exactly_reachable_witness :
    (build_sorted_metadata_indicies SortType.CommitterTimestamp [1, 2, 0]
      (build_reverse_dag exLookup exStorageChain [exOid 0]).child_indices
      exLookup exStorageChain).Nodup ∧
    ((metadata_iter SortType.CommitterTimestamp exStorageChain exLookup
      [exOid 0] [1, 2, 0]).map (fun m => m.id)).Nodup :=
  ⟨(C3_metadata_iter_exactly_reachable SortType.CommitterTimestamp
      exStorageChain exLookup [exOid 0] [1, 2, 0] (fun i => i)
      ⟨by decide, by decide⟩ (by decide) (by decide)).2.2.1,
   (C3_metadata_iter_exactly_reachable SortType.CommitterTimestamp
      exStorageChain exLookup [exOid 0] [1, 2, 0] (fun i => i)
      ⟨by decide, by decide⟩ (by decide) (by decide)).2.2.2⟩

/-! ### Claims C4 and C5: store lookup and cache invariants -/

theorem search_ok_some_id {E : Type} :
    ∀ (packs : List (PackFn E)) (id : ObjectId) (m : CommitMetadata),
    search_packs_for_metadata packs id = .ok (some m) → m.id = id := by
  intro packs
  induction packs with
  | nil =>
    intro id m h
    simp [search_packs_for_metadata] at h
  | cons p rest ih =>
    intro id m h
    unfold search_packs_for_metadata at h
    cases hp : p id with
    | ok o =>
      cases o with
      | some mm =>
        rw [hp] at h
        injection h with h
        injection h with h
        rw [← h]
        rfl
      | none =>
        rw [hp] at h
        exact ih id m h
    | error e =>
      rw [hp] at h
      exact absurd h (by simp)

theorem store_insert_wf {E : Type} (st : StoreState E)
    (m : CommitMetadata) (hwf : WfCache st) :
    WfCache (store_insert st m) := by
  intro x i hx
  unfold store_insert at hx ⊢
  dsimp only at hx ⊢
  by_cases hxm : x = m.id
  · rw [if_pos hxm] at hx
    injection hx with hx
    subst hx
    have hlen : st.metadata_storage.length <
        (st.metadata_storage ++ [m]).length := by simp
    refine ⟨hlen, ?_⟩
    have hgot : (st.metadata_storage ++ [m]).get
        ⟨st.metadata_storage.length, hlen⟩ = m := by
      rw [List.get_eq_getElem]
      simp
    rw [hgot, hxm]
  · rw [if_neg hxm] at hx
    obtain ⟨h, hid⟩ := hwf x i hx
    refine ⟨by rw [List.length_append]; omega, ?_⟩
    rw [List.get_eq_getElem, List.getElem_append_left h]
    exact hid

theorem wfCache_congr {E : Type} (st st2 : StoreState E)
    (hlk : st.metadata_lookup = st2.metadata_lookup)
    (hst : st.metadata_storage = st2.metadata_storage)
    (hwf : WfCache st2) : WfCache st := by
  intro x i hx
  rw [hlk] at hx
  obtain ⟨h, hid⟩ := hwf x i hx
  rw [hst]
  exact ⟨h, hid⟩

theorem get_idx_shape {E : Type} (loose : ObjectId → LooseResult E)
    (rescanned : Except E (List (PackFn E)))
    (libgit2 : ObjectId → Except E CommitMetadataWithoutId)
    (allow_libgit2_fallback : Bool) (notFoundErr : E)
    (st : StoreState E) (id : ObjectId) :
    ((get_commit_metadata_idx loose rescanned libgit2
        allow_libgit2_fallback notFoundErr st id).2.metadata_lookup =
        st.metadata_lookup ∧
      (get_commit_metadata_idx loose rescanned libgit2
        allow_libgit2_fallback notFoundErr st id).2.metadata_storage =
        st.metadata_storage) ∨
    ∃ m : CommitMetadata, st.metadata_lookup m.id = none ∧
      (get_commit_metadata_idx loose rescanned libgit2
        allow_libgit2_fallback notFoundErr st id).2.metadata_lookup =
        (fun x => if x = m.id then some st.metadata_storage.length
          else st.metadata_lookup x) ∧
      (get_commit_metadata_idx loose rescanned libgit2
        allow_libgit2_fallback notFoundErr st id).2.metadata_storage =
        st.metadata_storage ++ [m] := by
  unfold get_commit_metadata_idx
  cases hl : st.metadata_lookup id with
  | some idx => exact Or.inl ⟨rfl, rfl⟩
  | none =>
    dsimp only
    cases hlo : loose id with
    | found m => exact Or.inr ⟨m.into_full_metadata id, hl, rfl, rfl⟩
    | failed e => exact Or.inl ⟨rfl, rfl⟩
    | absent =>
      dsimp only
      cases hs1 : search_packs_for_metadata st.packs id with
      | ok o1 =>
        try dsimp only
        cases o1 with
        | some metadata =>
          refine Or.inr ⟨metadata, ?_, rfl, rfl⟩
          rw [search_ok_some_id st.packs id metadata hs1]
          exact hl
        | none =>
          dsimp only
          cases hr : rescanned with
          | error e => exact Or.inl ⟨rfl, rfl⟩
          | ok packs2 =>
            dsimp only
            cases hs2 : search_packs_for_metadata packs2 id with
            | ok o2 =>
              try dsimp only
              cases o2 with
              | some metadata =>
                refine Or.inr ⟨metadata, ?_, rfl, rfl⟩
                rw [search_ok_some_id packs2 id metadata hs2]
                exact hl
              | none =>
                dsimp only
                cases allow_libgit2_fallback with
                | false => exact Or.inl ⟨rfl, rfl⟩
                | true =>
                  try dsimp only
                  cases hlib : libgit2 id with
                  | ok m =>
                    exact Or.inr ⟨m.into_full_metadata id, hl, rfl, rfl⟩
                  | error e => exact Or.inl ⟨rfl, rfl⟩
            | error e2 =>
              dsimp only
              cases allow_libgit2_fallback with
              | false => exact Or.inl ⟨rfl, rfl⟩
              | true =>
                try dsimp only
                cases hlib : libgit2 id with
                | ok m =>
                  exact Or.inr ⟨m.into_full_metadata id, hl, rfl, rfl⟩
                | error e => exact Or.inl ⟨rfl, rfl⟩
      | error e1 =>
        dsimp only
        cases allow_libgit2_fallback with
        | false => exact Or.inl ⟨rfl, rfl⟩
        | true =>
          try dsimp only
          cases hlib : libgit2 id with
          | ok m =>
            exact Or.inr ⟨m.into_full_metadata id, hl, rfl, rfl⟩
          | error e => exact Or.inl ⟨rfl, rfl⟩

theorem get_idx_preserves {E : Type} (loose : ObjectId → LooseResult E)
    (rescanned : Except E (List (PackFn E)))
    (libgit2 : ObjectId → Except E CommitMetadataWithoutId)
    (allow_libgit2_fallback : Bool) (notFoundErr : E)
    (st : StoreState E) (id : ObjectId) (hwf : WfCache st) :
    (∀ x i, st.metadata_lookup x = some i →
      (get_commit_metadata_idx loose rescanned libgit2
        allow_libgit2_fallback notFoundErr st id).2.metadata_lookup x =
        some i) ∧
    (get_commit_metadata_idx loose rescanned libgit2
      allow_libgit2_fallback notFoundErr st id).2.metadata_storage.take
      st.metadata_storage.length = st.metadata_storage ∧
    WfCache (get_commit_metadata_idx loose rescanned libgit2
      allow_libgit2_fallback notFoundErr st id).2 := by
  rcases get_idx_shape loose rescanned libgit2 allow_libgit2_fallback
    notFoundErr st id with ⟨hLk, hSt⟩ | ⟨m, hm, hLk, hSt⟩
  · refine ⟨fun x i hx => by rw [hLk]; exact hx, ?_, ?_⟩
    · rw [hSt, List.take_length]
    · intro x i hx
      rw [hLk] at hx
      obtain ⟨h, hid⟩ := hwf x i hx
      rw [hSt]
      exact ⟨h, hid⟩
  · refine ⟨?_, ?_, ?_⟩
    · intro x i hx
      rw [hLk]
      dsimp only
      rw [if_neg (fun hxe => by rw [hxe, hm] at hx; exact Option.noConfusion hx)]
      exact hx
    · rw [hSt]
      exact List.take_left _ _
    · refine wfCache_congr _ (store_insert st m) ?_ ?_ (store_insert_wf st m hwf)
      · rw [hLk]; rfl
      · rw [hSt]; rfl

/-- C5: across any sequence of metadata lookups, the store cache is
append-only and stable: every existing `metadata_lookup` mapping is
preserved verbatim, the existing `metadata_storage` prefix is preserved
verbatim (so slot indices are never reused or repointed), and every
mapped slot holds metadata whose id equals the mapped `ObjectId`. -/
theorem C5_cache_stability {E : Type} (loose : ObjectId → LooseResult E)
    (rescanned : Except E (List (PackFn E)))
    (libgit2 : ObjectId → Except E CommitMetadataWithoutId)
    (allow_libgit2_fallback : Bool) (notFoundErr : E)
    (ids : List ObjectId) (st : StoreState E) (hwf : WfCache st) :
    (∀ x i, st.metadata_lookup x = some i →
      (process_ids loose rescanned libgit2 allow_libgit2_fallback
        notFoundErr st ids).metadata_lookup x = some i) ∧
    (process_ids loose rescanned libgit2 allow_libgit2_fallback
      notFoundErr st ids).metadata_storage.take
      st.metadata_storage.length = st.metadata_storage ∧
    WfCache (process_ids loose rescanned libgit2 allow_libgit2_fallback
      notFoundErr st ids) := by
  induction ids generalizing st with
  | nil => exact ⟨fun x i hx => hx, List.take_length _, hwf⟩
  | cons i ids ih =>
    obtain ⟨a1, b1, c1⟩ := get_idx_preserves loose rescanned libgit2
      allow_libgit2_fallback notFoundErr st i hwf
    obtain ⟨a2, b2, c2⟩ := ih ((get_commit_metadata_idx loose rescanned
      libgit2 allow_libgit2_fallback notFoundErr st i).2) c1
    refine ⟨fun x j hx => a2 x j (a1 x j hx), ?_, c2⟩
    have hle : st.metadata_storage.length ≤
        (get_commit_metadata_idx loose rescanned libgit2
          allow_libgit2_fallback notFoundErr st i).2.metadata_storage.length := by
      have hlen := congrArg List.length b1
      rw [List.length_take] at hlen
      omega
    calc (process_ids loose rescanned libgit2 allow_libgit2_fallback
          notFoundErr ((get_commit_metadata_idx loose rescanned libgit2
            allow_libgit2_fallback notFoundErr st i).2)
          ids).metadata_storage.take st.metadata_storage.length
        = ((process_ids loose rescanned libgit2 allow_libgit2_fallback
            notFoundErr ((get_commit_metadata_idx loose rescanned libgit2
              allow_libgit2_fallback notFoundErr st i).2)
            ids).metadata_storage.take
            (get_commit_metadata_idx loose rescanned libgit2
              allow_libgit2_fallback notFoundErr
              st i).2.metadata_storage.length).take
            st.metadata_storage.length := by
          rw [List.take_take, inf_of_le_left hle]
      _ = (get_commit_metadata_idx loose rescanned libgit2
            allow_libgit2_fallback notFoundErr
            st i).2.metadata_storage.take st.metadata_storage.length := by
          rw [b2]
      _ = st.metadata_storage := b1

theorem C5_cache_stability_witness :
    WfCache exStoreOnePack ∧
    ((∀ x i, exStoreOnePack.metadata_lookup x = some i →
      (process_ids exLooseAbsent (.ok []) exLibgit2 true 99 exStoreOnePack
        [ObjectId.mk [1]]).metadata_lookup x = some i) ∧
    (process_ids exLooseAbsent (.ok []) exLibgit2 true 99 exStoreOnePack
      [ObjectId.mk [1]]).metadata_storage.take
      exStoreOnePack.metadata_storage.length =
      exStoreOnePack.metadata_storage ∧
    WfCache (process_ids exLooseAbsent (.ok []) exLibgit2 true 99
      exStoreOnePack [ObjectId.mk [1]])) := by
  have hwf : WfCache exStoreOnePack := by
    intro x i hx
    exact absurd hx (by simp [exStoreOnePack])
  exact ⟨hwf, C5_cache_stability exLooseAbsent (.ok []) exLibgit2 true 99
    [ObjectId.mk [1]] exStoreOnePack hwf⟩

/-- C4 counterexample: the spec says a parser error in the loose-object
tier is logged, treated as "not found here", and the search continues
through the pack tiers.  In the code the `?` on
`decompress_commit_metadata` propagates the error immediately: here the
loose parse fails with error 7 while the resident pack holds the id and
the libgit2 fallback is allowed, yet the lookup returns error 7 and
caches nothing. -/
theorem C4_loose_error_counterexample :
    (∃ m, exPackHit (ObjectId.mk [1]) = .ok (some m)) ∧
    get_commit_metadata_idx exLooseFailed (.ok [exPackHit]) exLibgit2
      true 99 exStoreOnePack (ObjectId.mk [1]) =
      (.error 7, exStoreOnePack) :=
  ⟨⟨exMetaW, rfl⟩, rfl⟩

/-- C4 (amended): error handling of `Repo::get_commit_metadata_idx` for
an uncached id.  (1) A loose-object parse error aborts the lookup with
that error, consulting no pack tier.  (2) An error from the
resident-pack scan skips the pack-directory rescan; with the fallback
disallowed the lookup fails with the not-found error, with it allowed
the result is the libgit2 outcome.  (3) Only exhaustion — loose file
absent and both pack scans finding nothing — with the fallback
disallowed yields the not-found error. -/
theorem C4_error_tier_behaviour {E : Type} (loose : ObjectId → LooseResult E)
    (rescanned : Except E (List (PackFn E)))
    (libgit2 : ObjectId → Except E CommitMetadataWithoutId)
    (allow_libgit2_fallback : Bool) (notFoundErr : E)
    (st : StoreState E) (id : ObjectId)
    (hmiss : st.metadata_lookup id = none) :
    (∀ e, loose id = .failed e →
      get_commit_metadata_idx loose rescanned libgit2
        allow_libgit2_fallback notFoundErr st id = (.error e, st)) ∧
    (∀ e, loose id = .absent →
      search_packs_for_metadata st.packs id = .error e →
      (allow_libgit2_fallback = false →
        get_commit_metadata_idx loose rescanned libgit2
          allow_libgit2_fallback notFoundErr st id =
          (.error notFoundErr, st)) ∧
      (allow_libgit2_fallback = true →
        (get_commit_metadata_idx loose rescanned libgit2
          allow_libgit2_fallback notFoundErr st id).1 =
          Except.map (fun _ => st.metadata_storage.length) (libgit2 id))) ∧
    (∀ packs2, loose id = .absent →
      search_packs_for_metadata st.packs id = .ok none →
      rescanned = .ok packs2 →
      search_packs_for_metadata packs2 id = .ok none →
      allow_libgit2_fallback = false →
      get_commit_metadata_idx loose rescanned libgit2
        allow_libgit2_fallback notFoundErr st id =
        (.error notFoundErr, { st with packs := packs2 })) := by
  refine ⟨?_, ?_, ?_⟩
  · intro e hlo
    unfold get_commit_metadata_idx
    rw [hmiss, hlo]
  · intro e hlo hs1
    constructor
    · intro hal
      subst hal
      unfold get_commit_metadata_idx
      rw [hmiss, hlo, hs1]
      rfl
    · intro hal
      subst hal
      unfold get_commit_metadata_idx
      rw [hmiss, hlo, hs1]
      cases hlib : libgit2 id with
      | ok m => rfl
      | error e2 => rfl
  · intro packs2 hlo hs1 hr hs2 hal
    subst hal
    unfold get_commit_metadata_idx
    rw [hmiss, hlo, hs1, hr]
    dsimp only
    rw [hs2]
    rfl

theorem C4_error_tier_behaviour_witness :
    get_commit_metadata_idx exLooseAbsent (.ok []) exLibgit2 false 99
      exStoreNoPacks (ObjectId.mk [1]) = (.error 99, exStoreNoPacks) :=
  (C4_error_tier_behaviour exLooseAbsent (.ok []) exLibgit2 false 99
    exStoreNoPacks (ObjectId.mk [1]) rfl).2.2 [] rfl rfl rfl rfl rfl

/-! ### Claim C6: pack index fan-out binary search -/

theorem exIdxData_get_fan (j : Nat) (hj : j < 1024) :
    exIdxData.getD (8 + j) 0 = if j % 4 = 3 then 1 else 0 := by
  unfold exIdxData
  rw [List.getD_eq_getElem?_getD]
  rw [List.getElem?_append_left (by simp; omega)]
  rw [List.getElem?_append_left (by simp; omega)]
  rw [List.getElem?_append_left (by simp; omega)]
  rw [List.getElem?_append_left (by simp; omega)]
  rw [List.getElem?_append_right
    (by simp only [List.length_cons, List.length_nil]; omega)]
  simp only [List.length_cons, List.length_nil]
  rw [show (8 + j - (0 + 1 + 1 + 1 + 1 + 1 + 1 + 1 + 1)) = j by omega]
  rw [List.getElem?_map]
  rw [List.getElem?_range hj]
  rfl

theorem exIdxData_fanout (k : Nat) (hk : k < 256) :
    read_fanout exIdxData 8 k = 1 := by
  unfold read_fanout readU32be
  have h0 := exIdxData_get_fan (k * 4) (by omega)
  have h1 := exIdxData_get_fan (k * 4 + 1) (by omega)
  have h2 := exIdxData_get_fan (k * 4 + 2) (by omega)
  have h3 := exIdxData_get_fan (k * 4 + 3) (by omega)
  rw [show k * 4 % 4 = 0 by omega] at h0
  rw [show (k * 4 + 1) % 4 = 1 by omega] at h1
  rw [show (k * 4 + 2) % 4 = 2 by omega] at h2
  rw [show (k * 4 + 3) % 4 = 3 by omega] at h3
  simp only [show ∀ m : Nat, 8 + k * 4 + m = 8 + (k * 4 + m) from
    fun m => by omega]
  rw [h1, h2, h3]
  rw [show (8 + k * 4 : Nat) = 8 + (k * 4) from rfl]
  rw [h0]
  simp

theorem exIdxData_len : exIdxData.length = 1100 := by
  unfold exIdxData
  simp

set_option maxRecDepth 8000 in
theorem exIdxData_objectIdAt_zero :
    (objectIdAt exIdxData 0).headD 0 = 0 := by rfl

set_option maxRecDepth 8000 in
theorem exIdxData_wf : packIndexV2Wf exIdxData := by
  unfold packIndexV2Wf
  refine ⟨by decide, by decide, ?_, ?_, ?_⟩
  · rw [exIdxData_fanout 255 (by omega), exIdxData_len]
  · intro j hj i hij
    rw [exIdxData_fanout 255 (by omega)] at hj
    omega
  · intro k hk
    rw [exIdxData_fanout k hk, exIdxData_fanout 255 (by omega)]
    simp only [List.range_succ, List.range_zero, List.nil_append,
      List.filter_cons, List.filter_nil, exIdxData_objectIdAt_zero]
    simp

set_option maxRecDepth 8000 in
/-- C6: the fan-out-restricted binary search is claimed to find an id
exactly when it occurs in the object table, so `object_offset` returns
`Ok(None)` for every absent id.  On the well-formed single-object index
`exIdxData` the probe id `exTarget` is absent from the object table, yet
`object_offset` returns `Ok(Some 0)`: the empty fan-out range `[1, 1)`
makes the first probe read index 1 — one past the table — comparing the
CRC-table, offset-table and trailer bytes against the target before the
`lower_bound >= upper_bound` emptiness test runs, and those bytes match
`exTarget`, after which the offset is read from past the offset table. -/
theorem C6_object_offset_phantom_hit :
    packIndexV2Wf exIdxData ∧
    ((List.range (read_fanout exIdxData 8 255)).map
      (objectIdAt exIdxData)).contains exTarget = false ∧
    PackIndexV2.object_offset exIdxData exTarget 10 =
      some (.ok (some 0)) := by
  refine ⟨exIdxData_wf, by decide, by rfl⟩

/-! ### Claim C7: pack object dispatch errors -/

/-- C7 counterexample: the spec says reaching a non-delta, non-commit
base while walking an offset-delta chain fails with a returned
`MalformedObject` error.  On `exPackBytes` the outer object at
location 2 is an offset delta whose base at location 0 is a tree: the
code hits `assert!(base_header.typ == ObjectType::Commit)` and crashes
instead of returning an error. -/
theorem C7_nondelta_base_crash_counterexample :
    PackData.get_commit_metadata exPackBytes exDecompressCommit
      exFinishDelta 2 10 =
      some (.crash "assertion failed: base_header.typ == ObjectType::Commit") ∧
    (read_pack_obj_header (exPackBytes.drop 2) 10 =
      some (.ok (⟨ObjectType.OffsetDelta, 5⟩, 1))) ∧
    (read_pack_obj_header (exPackBytes.drop 0) 10 =
      some (.ok (⟨ObjectType.Tree, 3⟩, 1))) :=
  ⟨rfl, rfl, rfl⟩

/-- C7 (amended): an outer tree, blob, tag or ref-delta header makes
`PackData::get_commit_metadata` return the "Unimplemented parser" error
to the caller, as claimed; but an offset-delta chain reaching a
non-delta base that is not a commit dies on the
`assert!(base_header.typ == ObjectType::Commit)` — a crash, not a
returned error. -/
theorem C7_dispatch_behaviour (data : List Nat)
    (decompress_commit : Nat → Except String CommitMetadataWithoutId)
    (finish_delta : Nat → List (Nat × Nat) → RunOutcome CommitMetadataWithoutId)
    (loc fuel : Nat) :
    (∀ header i,
      read_pack_obj_header (data.drop loc) fuel = some (.ok (header, i)) →
      (header.typ = ObjectType.Tree ∨ header.typ = ObjectType.Blob ∨
        header.typ = ObjectType.Tag ∨ header.typ = ObjectType.RefDelta) →
      PackData.get_commit_metadata data decompress_commit finish_delta
        loc fuel =
        some (.err ("Unimplemented parser for " ++ header.typ.display))) ∧
    (∀ header i base_ref_offset read_bytes base_header n,
      read_pack_obj_header (data.drop loc) fuel = some (.ok (header, i)) →
      header.typ = ObjectType.OffsetDelta →
      parse_offset_delta_base_obj_offset (data.drop (loc + i)) fuel =
        some (base_ref_offset, read_bytes) →
      read_pack_obj_header (data.drop (loc - base_ref_offset)) fuel =
        some (.ok (base_header, n)) →
      base_header.typ ≠ ObjectType.OffsetDelta →
      base_header.typ ≠ ObjectType.Commit →
      0 < fuel →
      PackData.get_commit_metadata data decompress_commit finish_delta
        loc fuel =
        some (.crash "assertion failed: base_header.typ == ObjectType::Commit")) := by
  constructor
  · intro header i hread hdisj
    obtain ⟨typ, size⟩ := header
    unfold PackData.get_commit_metadata
    rw [hread]
    dsimp only at hdisj ⊢
    rcases hdisj with h | h | h | h <;> subst h <;> rfl
  · intro header i base_ref_offset read_bytes base_header n hread htyp
      hparse hbase hne hnc hfuel
    obtain ⟨typ, size⟩ := header
    dsimp only at htyp
    subst htyp
    unfold PackData.get_commit_metadata
    rw [hread]
    dsimp only
    rw [hparse]
    dsimp only
    cases fuel with
    | zero => exact absurd hfuel (by omega)
    | succ f =>
      unfold delta_chain_walk
      rw [hbase]
      dsimp only
      rw [if_pos hne, if_neg hnc]

theorem C7_dispatch_behaviour_witness :
    PackData.get_commit_metadata [0x23, 0] exDecompressCommit
      exFinishDelta 0 10 =
      some (.err "Unimplemented parser for tree") :=
  (C7_dispatch_behaviour [0x23, 0] exDecompressCommit exFinishDelta
    0 10).1 ⟨ObjectType.Tree, 3⟩ 1 rfl (Or.inl rfl)

/-! ### Claim C9: history graph layout -/

theorem nodesRows_next_y (nodes : List CommitNode) (h : NodesRows nodes) :
    ((nodes.getLast?.map (fun node => node.position.y + 1)).getD 0) =
      nodes.length := by
  rcases List.eq_nil_or_concat nodes with rfl | ⟨ns, a, rfl⟩
  · rfl
  · rw [List.concat_eq_append, List.getLast?_concat]
    unfold NodesRows at h
    rw [List.concat_eq_append, List.map_append, List.length_append] at h
    simp only [List.map_cons, List.map_nil, List.length_cons,
      List.length_nil] at h
    rw [List.range_succ] at h
    have := List.append_inj' h (by simp)
    have ha : a.position.y = ns.length := by
      have h2 := this.2
      injection h2
    simp [ha]

theorem nodesRows_add (nodes : List CommitNode) (x : Nat)
    (c : CommitMetadata) (h : NodesRows nodes) :
    NodesRows (add_commit_to_node_list x c nodes) := by
  unfold add_commit_to_node_list
  unfold NodesRows at h ⊢
  rw [nodesRows_next_y nodes h]
  rw [List.map_append, List.length_append]
  simp only [List.map_cons, List.map_nil, List.length_cons, List.length_nil]
  rw [h, List.range_succ]

theorem tailsBound_mono (tails : List TailData) (m n : Nat) (hmn : m ≤ n)
    (h : TailsBound tails m) : TailsBound tails n :=
  fun t ht => le_trans (h t ht) hmn

theorem ensure_bound (commit : CommitMetadata) (vec : List TailData)
    (y_pos n : Nat) (hy : y_pos ≤ n) (h : TailsBound vec n) :
    TailsBound (ensure_commit_in_vec commit vec y_pos).2 n := by
  unfold ensure_commit_in_vec
  cases hf : vec.findIdx? (fun tail_data => decide (tail_data.oid = commit.id)) with
  | some found_idx => exact h
  | none =>
    intro t ht
    rcases List.mem_append.mp ht with ht | ht
    · exact h t ht
    · rw [List.mem_singleton] at ht
      rw [ht]
      exact hy

theorem getD_bound (ts : List TailData) (i n : Nat)
    (h : TailsBound ts n) : (ts.getD i tdDefault).edge_start_y ≤ n := by
  by_cases hi : i < ts.length
  · rw [List.getD_eq_getElem?_getD, List.getElem?_eq_getElem hi]
    exact h _ (List.getElem_mem hi)
  · rw [List.getD_eq_getElem?_getD, List.getElem?_eq_none (by omega)]
    exact Nat.zero_le n

theorem replace_flag_mono (x_idx commit_y : Nat) :
    ∀ (ps : List ObjectId) (ts : List TailData),
    (ps.foldl (replace_step x_idx commit_y) (ts, true)).2 = true := by
  intro ps
  induction ps with
  | nil => intro ts; rfl
  | cons p ps ih =>
    intro ts
    rw [List.foldl_cons]
    unfold replace_step
    dsimp only
    split
    · exact ih ts
    · exact ih _

theorem replace_noflag_id (x_idx commit_y : Nat) :
    ∀ (ps : List ObjectId) (ts ts2 : List TailData),
    ps.foldl (replace_step x_idx commit_y) (ts, false) = (ts2, false) →
    ts2 = ts := by
  intro ps
  induction ps with
  | nil =>
    intro ts ts2 h
    injection h with h1 h2
    exact h1.symm
  | cons p ps ih =>
    intro ts ts2 h
    rw [List.foldl_cons] at h
    by_cases hc : (ts.any (fun tail_data => decide (tail_data.oid = p)) : Bool)
    · have hstep : replace_step x_idx commit_y (ts, false) p = (ts, false) := by
        unfold replace_step
        dsimp only
        rw [if_pos hc]
      rw [hstep] at h
      exact ih ts ts2 h
    · have hstep : replace_step x_idx commit_y (ts, false) p =
          (ts.set x_idx ⟨p, (ts.getD x_idx tdDefault).edge_start_y⟩, true) := by
        unfold replace_step
        dsimp only
        rw [if_neg hc]
        rfl
      rw [hstep] at h
      have := replace_flag_mono x_idx commit_y ps
        (ts.set x_idx ⟨p, (ts.getD x_idx tdDefault).edge_start_y⟩)
      rw [h] at this
      exact absurd this (by simp)

theorem replace_fold_bound (x_idx commit_y : Nat) :
    ∀ (ps : List ObjectId) (acc : List TailData × Bool),
    TailsBound acc.1 (commit_y + 1) →
    TailsBound (ps.foldl (replace_step x_idx commit_y) acc).1 (commit_y + 1) := by
  intro ps
  induction ps with
  | nil => intro acc h; exact h
  | cons p ps ih =>
    intro acc h
    rw [List.foldl_cons]
    refine ih _ ?_
    unfold replace_step
    split
    · exact h
    · split
      · intro t ht
        rcases List.mem_append.mp ht with ht | ht
        · exact h t ht
        · rw [List.mem_singleton] at ht
          rw [ht]
      · intro t ht
        rcases List.mem_or_eq_of_mem_set ht with ht | ht
        · exact h t ht
        · rw [ht]
          exact getD_bound acc.1 x_idx (commit_y + 1) h

theorem replace_some_shape (parent_ids : List ObjectId)
    (x_idx commit_y : Nat) (tails : List TailData) (rd : TailData)
    (ts : List TailData)
    (h : replace_tail_with_parents parent_ids x_idx commit_y tails =
      (ts, some rd)) :
    ts = tails.eraseIdx x_idx ∧ rd = tails.getD x_idx tdDefault := by
  unfold replace_tail_with_parents at h
  rcases hf : parent_ids.foldl (replace_step x_idx commit_y) (tails, false)
    with ⟨ts1, b1⟩
  rw [hf] at h
  cases b1 with
  | true => exact absurd h (by simp)
  | false =>
    have hid := replace_noflag_id x_idx commit_y parent_ids tails ts1 hf
    subst hid
    injection h with h1 h2
    injection h2 with h2
    exact ⟨h1.symm, h2.symm⟩

theorem replace_none_bound (parent_ids : List ObjectId)
    (x_idx commit_y : Nat) (tails : List TailData) (ts : List TailData)
    (hb : TailsBound tails (commit_y + 1))
    (h : replace_tail_with_parents parent_ids x_idx commit_y tails =
      (ts, none)) :
    TailsBound ts (commit_y + 1) := by
  unfold replace_tail_with_parents at h
  rcases hf : parent_ids.foldl (replace_step x_idx commit_y) (tails, false)
    with ⟨ts1, b1⟩
  rw [hf] at h
  have hbound := replace_fold_bound x_idx commit_y parent_ids (tails, false) hb
  rw [hf] at hbound
  cases b1 with
  | true =>
    injection h with h1 h2
    rw [← h1]
    exact hbound
  | false => exact absurd h (by simp)

theorem eraseIdx_bound (tails : List TailData) (i n : Nat)
    (h : TailsBound tails n) : TailsBound (tails.eraseIdx i) n :=
  fun t ht => h t (List.eraseIdx_subset _ _ ht)

theorem drawRemovedGo_spec (cx cy : Nat) (rna : Bool) (rd : TailData)
    (hrd : rd.edge_start_y ≤ cy + 1) :
    ∀ (ts : List TailData) (i : Nat),
    (∀ t ∈ ts, t.edge_start_y ≤ cy) →
    TailsBound (drawRemovedGo cx cy rna rd i ts).1 (cy + 1) ∧
    EdgesOk (drawRemovedGo cx cy rna rd i ts).2 := by
  intro ts
  induction ts with
  | nil =>
    intro i h
    exact ⟨fun t ht => absurd ht (List.not_mem_nil t),
      fun e he => absurd he (List.not_mem_nil e)⟩
  | cons tail rest ih =>
    intro i h
    have hrec := ih (i + 1) (fun t ht => h t (List.mem_cons_of_mem _ ht))
    unfold drawRemovedGo
    dsimp only
    constructor
    · intro t ht
      rcases List.mem_cons.mp ht with ht | ht
      · rw [ht]
        dsimp only
        split
        · exact hrd
        · exact le_refl _
      · exact hrec.1 t ht
    · intro e he
      rcases List.mem_cons.mp he with he | he
      · rw [he]
        exact Or.inl ⟨rfl, h tail (List.mem_cons_self _ _)⟩
      · rcases List.mem_cons.mp he with he | he
        · rw [he]
          exact Or.inr rfl
        · exact hrec.2 e he

theorem draw_removed_spec (cx cy : Nat) (rna : Bool) (rd : TailData)
    (tails : List TailData) (edges : List Edge)
    (hrd : rd.edge_start_y ≤ cy + 1)
    (ht : TailsBound tails cy) (he : EdgesOk edges) :
    TailsBound (draw_removed_node_edges cx cy rna rd tails edges).1 (cy + 1) ∧
    EdgesOk (draw_removed_node_edges cx cy rna rd tails edges).2 := by
  have hgo := drawRemovedGo_spec cx cy rna rd hrd (tails.drop cx) cx
    (fun t htm => ht t (List.mem_of_mem_drop htm))
  unfold draw_removed_node_edges
  dsimp only
  constructor
  · intro t htm
    rcases List.mem_append.mp htm with htm | htm
    · exact le_trans (ht t (List.mem_of_mem_take htm)) (by omega)
    · exact hgo.1 t htm
  · intro e hem
    rcases List.mem_append.mp hem with hem | hem
    · exact he e hem
    · exact hgo.2 e hem

theorem draw_parent_ok (cx cy : Nat) (parent_ids : List ObjectId)
    (tails : List TailData) (edges : List Edge) (he : EdgesOk edges) :
    EdgesOk (draw_parent_connections cx cy parent_ids tails edges) := by
  unfold draw_parent_connections
  intro e hem
  rcases List.mem_append.mp hem with hem | hem
  · exact he e hem
  · obtain ⟨p, hp, hpe⟩ := List.mem_filterMap.mp hem
    by_cases h1 : p.1 = cx
    · rw [if_pos h1] at hpe
      exact absurd hpe (by simp)
    · rw [if_neg h1] at hpe
      by_cases h2 : (parent_ids.any (fun id => decide (id = p.2.oid)) : Bool)
      · rw [if_pos h2] at hpe
        injection hpe with hpe
        rw [← hpe]
        exact Or.inr rfl
      · rw [if_neg h2] at hpe
        exact absurd hpe (by simp)

theorem finish_edges_ok (tails : List TailData) (end_y : Nat)
    (edges : List Edge) (he : EdgesOk edges)
    (ht : TailsBound tails end_y) :
    EdgesOk (finish_edges tails end_y edges) := by
  unfold finish_edges
  intro e hem
  rcases List.mem_append.mp hem with hem | hem
  · exact he e hem
  · obtain ⟨p, hp, hpe⟩ := List.mem_map.mp hem
    rw [← hpe]
    refine Or.inl ⟨rfl, ?_⟩
    have : p.2 ∈ tails := by
      have := List.enum_map_snd tails
      rw [← this]
      exact List.mem_map_of_mem Prod.snd hp
    exact ht p.2 this

theorem add_commit_len (x : Nat) (c : CommitMetadata)
    (nodes : List CommitNode) :
    (add_commit_to_node_list x c nodes).length = nodes.length + 1 := by
  unfold add_commit_to_node_list
  simp

theorem process_commit_inv (gb : GraphBuilder) (c : CommitMetadata)
    (h1 : NodesRows gb.nodes) (h2 : TailsBound gb.tails gb.nodes.length)
    (h3 : EdgesOk gb.edges) :
    NodesRows (gb.process_commit c).nodes ∧
    TailsBound (gb.process_commit c).tails
      (gb.process_commit c).nodes.length ∧
    EdgesOk (gb.process_commit c).edges ∧
    (gb.process_commit c).nodes.length = gb.nodes.length + 1 := by
  have h4 := ensure_bound c gb.tails gb.nodes.length gb.nodes.length
    (le_refl _) h2
  have h5 := nodesRows_add gb.nodes
    (ensure_commit_in_vec c gb.tails gb.nodes.length).1 c h1
  have h6 := add_commit_len
    (ensure_commit_in_vec c gb.tails gb.nodes.length).1 c gb.nodes
  unfold GraphBuilder.process_commit
  dsimp only
  rcases hrep : replace_tail_with_parents c.parents
    (ensure_commit_in_vec c gb.tails gb.nodes.length).1 gb.nodes.length
    (ensure_commit_in_vec c gb.tails gb.nodes.length).2 with ⟨ts, rdOpt⟩
  dsimp only
  cases rdOpt with
  | none =>
    dsimp only
    have h7 := replace_none_bound c.parents
      (ensure_commit_in_vec c gb.tails gb.nodes.length).1 gb.nodes.length
      (ensure_commit_in_vec c gb.tails gb.nodes.length).2 ts
      (tailsBound_mono _ _ _ (by omega) h4) hrep
    refine ⟨h5, ?_, draw_parent_ok _ _ _ _ _ h3, h6⟩
    rw [h6]
    exact h7
  | some rd =>
    dsimp only
    obtain ⟨hts, hrdeq⟩ := replace_some_shape c.parents
      (ensure_commit_in_vec c gb.tails gb.nodes.length).1 gb.nodes.length
      (ensure_commit_in_vec c gb.tails gb.nodes.length).2 rd ts hrep
    have hrdb : rd.edge_start_y ≤ gb.nodes.length := by
      rw [hrdeq]
      exact getD_bound _ _ _ h4
    have htsb : TailsBound ts gb.nodes.length := by
      rw [hts]
      exact eraseIdx_bound _ _ _ h4
    split
    · split
      · have hdr := draw_removed_spec
          (ensure_commit_in_vec c gb.tails gb.nodes.length).1
          gb.nodes.length true rd ts gb.edges (by omega) htsb h3
        refine ⟨h5, ?_, draw_parent_ok _ _ _ _ _ hdr.2, h6⟩
        rw [h6]
        exact hdr.1
      · have hedge : EdgesOk (gb.edges ++
            [Edge.new (ensure_commit_in_vec c gb.tails gb.nodes.length).1
              rd.edge_start_y
              (ensure_commit_in_vec c gb.tails gb.nodes.length).1
              gb.nodes.length]) := by
          intro e he
          rcases List.mem_append.mp he with he | he
          · exact h3 e he
          · rw [List.mem_singleton] at he
            rw [he]
            exact Or.inl ⟨rfl, hrdb⟩
        have hdr := draw_removed_spec
          (ensure_commit_in_vec c gb.tails gb.nodes.length).1
          gb.nodes.length false rd ts _ (by omega) htsb hedge
        refine ⟨h5, ?_, draw_parent_ok _ _ _ _ _ hdr.2, h6⟩
        rw [h6]
        exact hdr.1
    · have hdr := draw_removed_spec
        (ensure_commit_in_vec c gb.tails gb.nodes.length).1
        gb.nodes.length false rd ts gb.edges (by omega) htsb h3
      refine ⟨h5, ?_, draw_parent_ok _ _ _ _ _ hdr.2, h6⟩
      rw [h6]
      exact hdr.1

theorem foldl_process_inv :
    ∀ (commits : List CommitMetadata) (gb : GraphBuilder),
    NodesRows gb.nodes → TailsBound gb.tails gb.nodes.length →
    EdgesOk gb.edges →
    NodesRows (commits.foldl GraphBuilder.process_commit gb).nodes ∧
    TailsBound (commits.foldl GraphBuilder.process_commit gb).tails
      (commits.foldl GraphBuilder.process_commit gb).nodes.length ∧
    EdgesOk (commits.foldl GraphBuilder.process_commit gb).edges ∧
    (commits.foldl GraphBuilder.process_commit gb).nodes.length =
      gb.nodes.length + commits.length := by
  intro commits
  induction commits with
  | nil => intro gb hh1 hh2 hh3; exact ⟨hh1, hh2, hh3, rfl⟩
  | cons c cs ih =>
    intro gb hh1 hh2 hh3
    obtain ⟨p1, p2, p3, p4⟩ := process_commit_inv gb c hh1 hh2 hh3
    rw [List.foldl_cons]
    obtain ⟨q1, q2, q3, q4⟩ := ih (gb.process_commit c) p1 p2 p3
    refine ⟨q1, q2, q3, ?_⟩
    rw [q4, p4, List.length_cons]
    omega

theorem build_graph_inv (commits : List CommitMetadata) :
    NodesRows (build_graph commits).nodes ∧
    EdgesOk (build_graph commits).edges ∧
    (build_graph commits).nodes.length = commits.length := by
  obtain ⟨p1, p2, p3, p4⟩ := foldl_process_inv commits ⟨[], [], []⟩
    rfl (fun t ht => absurd ht (List.not_mem_nil t))
    (fun e he => absurd he (List.not_mem_nil e))
  unfold build_graph GraphBuilder.build
  dsimp only
  exact ⟨p1, finish_edges_ok _ _ _ p3 p2, by rw [p4]; simp⟩

/-- C9 (amended): the node count equals the processed commit count and
node `i` sits at row `i`, as claimed; but the only guarantee on edges is
that each is either vertical within one lane (non-decreasing rows) or
joins two adjacent rows.  Interior vertical lane edges spanning more
than one row occur (see the counterexample), not only the row-0 sentinel
and the final trailing edges. -/
theorem C9_graph_layout (commits : List CommitMetadata) :
    (build_graph commits).nodes.length = commits.length ∧
    (∀ i (h : i < (build_graph commits).nodes.length),
      ((build_graph commits).nodes.get ⟨i, h⟩).position.y = i) ∧
    (∀ e ∈ (build_graph commits).edges, EdgeShapeOk e) := by
  obtain ⟨p1, p2, p3⟩ := build_graph_inv commits
  refine ⟨p3, ?_, p2⟩
  intro i h
  have hm : i < (List.map (fun n => n.position.y)
      (build_graph commits).nodes).length := by
    rw [List.length_map]
    exact h
  have hg := List.getElem_of_eq p1 hm
  rw [List.getElem_map] at hg
  rw [List.getElem_range] at hg
  rw [List.get_eq_getElem]
  exact hg

theorem C9_graph_layout_witness :
    ∃ h : 2 < (build_graph exGraphCommits).nodes.length,
      ((build_graph exGraphCommits).nodes.get ⟨2, h⟩).position.y = 2 := by
  have hc := C9_graph_layout exGraphCommits
  have hlen : 2 < (build_graph exGraphCommits).nodes.length := by
    rw [hc.1]
    decide
  exact ⟨hlen, hc.2.1 2 hlen⟩

/-- C9 counterexample: on `exGraphCommits` the builder emits the edge
from (1, 1) to (1, 3), whose row coordinates differ by two although it
neither touches row 0 (the sentinel) nor reaches the final row
`nodes.length` (a trailing edge): the claimed "all other edges join
adjacent rows" fails for deferred lane edges. -/
theorem C9_interior_long_edge_counterexample :
    (build_graph exGraphCommits).nodes.length = 5 ∧
    Edge.new 1 1 1 3 ∈ (build_graph exGraphCommits).edges ∧
    (Edge.new 1 1 1 3).a.y ≠ 0 ∧
    (Edge.new 1 1 1 3).b.y ≠ (Edge.new 1 1 1 3).a.y + 1 ∧
    (Edge.new 1 1 1 3).b.y ≠ (build_graph exGraphCommits).nodes.length ∧
    (Edge.new 1 1 1 3).a.y ≠ (build_graph exGraphCommits).nodes.length := by
  decide
